import Mathlib

set_option maxRecDepth 100000

/-!
Verification of the Projet-ERP-Logistics repository against its
natural-language specification.

The development shallowly embeds:
* the frontend authorization helpers (`hasRole` / `hasPermission` from
  `AuthProvider.jsx`);
* the purchase-order form logic (`POForm`: `handleFormSubmit`,
  `handleSaveItem`, `calculateTotal`), including an exact model of the
  IEEE-754 binary64 arithmetic JavaScript uses for `parseFloat`, `*` and `+`;
* the order-fulfillment core described by the spec and by
  `order_fulfillment/README_PROMPT.md` (workflow state machine, allocation,
  picking, packing, cancellation) — the Python services themselves are not
  part of the provided sources, so those definitions are modelled from the
  spec, as marked in their doc comments.
-/

namespace ERP

/-! ## AuthProvider (frontend/src/contexts/AuthProvider.jsx)

JavaScript objects delivered by the API may lack the `roles` /
`permissions` arrays, which the code guards with optional chaining;
those fields are embedded as `Option (List _)`. -/

structure Permission where
  codename : String
deriving DecidableEq, Repr

structure Role where
  name : String
  permissions : Option (List Permission)
deriving DecidableEq, Repr

structure User where
  roles : Option (List Role)
deriving DecidableEq, Repr

/-- `hasRole` from `AuthProvider.jsx`:
`user?.roles?.some(role => role.name === roleName) || false`. -/
def hasRole (user : Option User) (roleName : String) : Bool :=
  match user with
  | none => false
  | some u =>
    match u.roles with
    | none => false
    | some rs => rs.any (fun role => role.name == roleName)

/-- `hasPermission` from `AuthProvider.jsx`: returns `false` when `user` is
null, else scans `user.roles || []`, returning `true` on the first role
whose `permissions` contains the codename. -/
def hasPermission (user : Option User) (permission : String) : Bool :=
  match user with
  | none => false
  | some u =>
    (u.roles.getD []).any (fun role =>
      match role.permissions with
      | none => false
      | some ps => ps.any (fun perm => perm.codename == permission))

/-! ## JavaScript number semantics

The purchase-order form (`POForm`, `src/unnamed/part_001`) stores
quantities and prices with `parseFloat` and computes subtotals and the
grand total with JavaScript `*` and `+`, i.e. IEEE-754 binary64
arithmetic.  Binary64 values are modelled exactly as the rationals they
denote; each operation performs the exact rational operation and then
rounds to 53 significant bits, round-to-nearest, ties to even.  Overflow
and subnormals are outside the magnitudes these forms handle and do not
arise at any input considered here. -/

/-- Fuel-driven binary logarithm: for `n ≥ 1` (and enough fuel) this is
`⌊log₂ n⌋`. -/
def ilog2 : Nat → Nat → Nat
  | 0, _ => 0
  | fuel+1, n => if n < 2 then 0 else ilog2 fuel (n / 2) + 1

/-- `2^k` as a rational, for an integer exponent `k`. -/
def pow2z (k : ℤ) : ℚ :=
  if 0 ≤ k then ((2 ^ k.toNat : ℕ) : ℚ) else ((2 ^ (-k).toNat : ℕ) : ℚ)⁻¹

/-- Floor of a rational, expressed through flooring integer division on the
numerator and denominator. -/
def ratFloor (q : ℚ) : ℤ := Int.fdiv q.num q.den

/-- The binary exponent of a positive rational: the unique `e` with
`2^e ≤ q < 2^(e+1)`, valid for every `q ≥ 2^(-200)` (all inputs here are
far larger). -/
def binExp (q : ℚ) : ℤ :=
  (ilog2 2400 (ratFloor (q * ((2 ^ 200 : ℕ) : ℚ))).toNat : ℤ) - 200

/-- Round a rational to an integer, ties to even. -/
def roundHalfEven (q : ℚ) : ℤ :=
  let f := ratFloor q
  if q - f < 1/2 then f
  else if 1/2 < q - f then f + 1
  else if f % 2 = 0 then f else f + 1

/-- Round a positive rational to the nearest binary64 value (53-bit
significand, ties to even). -/
def roundPos (q : ℚ) : ℚ :=
  let e := binExp q
  let ulp := pow2z (e - 52)
  (roundHalfEven (q / ulp) : ℚ) * ulp

/-- The binary64 value nearest to `q`; this is the result of JavaScript
`parseFloat` applied to a decimal numeral whose exact value is `q`. -/
def toDouble (q : ℚ) : ℚ :=
  if q = 0 then 0 else if q < 0 then -roundPos (-q) else roundPos q

/-- JavaScript `+` on numbers: exact sum, rounded to binary64. -/
def jsAdd (a b : ℚ) : ℚ := toDouble (a + b)

/-- JavaScript `*` on numbers: exact product, rounded to binary64. -/
def jsMul (a b : ℚ) : ℚ := toDouble (a * b)

/-! ## POForm line items (src/unnamed/part_001)

`handleSaveItem` refuses to save while any of `item_code`,
`item_description`, `quantity_ordered`, `unit_price` is falsy, then stores
the numeric fields through `parseFloat`.  A numeric form field is embedded
as `Option ℚ`: `none` is the empty string, `some q` a decimal numeral
whose exact value is `q` (any non-empty string is truthy in JavaScript,
so presence is exactly `isSome`). -/

structure ItemFormState where
  item_code : String
  item_description : String
  quantity_ordered : Option ℚ
  unit_price : Option ℚ
deriving DecidableEq, Repr

/-- A saved line item: `quantity_ordered` and `unit_price` hold the
binary64 values produced by `parseFloat`. -/
structure LineItem where
  item_code : String
  item_description : String
  quantity_ordered : ℚ
  unit_price : ℚ
deriving DecidableEq, Repr

/-- `handleSaveItem` from `POForm`: `none` models the early `return` on a
missing field, `some item` the item appended to (or replacing one in)
`lineItems`. -/
def handleSaveItem (form : ItemFormState) : Option LineItem :=
  match form.quantity_ordered, form.unit_price with
  | some q, some p =>
    if form.item_code = "" ∨ form.item_description = "" then none
    else some { item_code := form.item_code,
                item_description := form.item_description,
                quantity_ordered := toDouble q,
                unit_price := toDouble p }
  | _, _ => none

/-- `calculateTotal` from `POForm`:
`lineItems.reduce((total, item) => total + item.quantity_ordered * item.unit_price, 0)`,
in JavaScript arithmetic. -/
def calculateTotal (lineItems : List LineItem) : ℚ :=
  lineItems.foldl
    (fun total item => jsAdd total (jsMul item.quantity_ordered item.unit_price)) 0

/-- The exact decimal sum `Σ quantity × unit_price` over the values the
user entered — the total the spec's fixed-point-decimal reading demands. -/
def exactDecimalTotal (entries : List (ℚ × ℚ)) : ℚ :=
  (entries.map (fun e => e.1 * e.2)).sum

/-! ## POForm submit validation (src/unnamed/part_001, `handleFormSubmit`)

The handler first builds a field-error object for `vendor`, `order_date`
and `priority`, then — before looking at that object — returns with the
message `'Please add at least one line item'` when `lineItems` is empty;
then returns with the field errors when any exist; only otherwise does it
issue the network request. Empty string models a missing/falsy field. -/

structure POFormData where
  vendor : String
  order_date : String
  priority : String
deriving DecidableEq, Repr

/-- Possible outcomes of `handleFormSubmit`, in the order the code can
produce them. -/
inductive SubmitOutcome where
  /-- `setError('Please add at least one line item'); return` -/
  | lineItemError (message : String)
  /-- `setFormErrors(errors); return` -/
  | fieldErrors (fields : List String)
  /-- the `api.post`/`api.put` request is issued with this payload -/
  | request (fd : POFormData) (items : List LineItem)
deriving DecidableEq, Repr

/-- Field-error list computed at the top of `handleFormSubmit`. -/
def poFormErrors (fd : POFormData) : List String :=
  (if fd.vendor = "" then ["vendor"] else []) ++
  (if fd.order_date = "" then ["order_date"] else []) ++
  (if fd.priority = "" then ["priority"] else [])

/-- `handleFormSubmit` from `POForm`: control flow of the validation
section, ending either in an early return or in the submission request. -/
def handleFormSubmit (fd : POFormData) (lineItems : List LineItem) :
    SubmitOutcome :=
  let errors := poFormErrors fd
  if lineItems.length = 0 then
    .lineItemError "Please add at least one line item"
  else if errors.length ≠ 0 then
    .fieldErrors errors
  else
    .request fd lineItems

/-! ## Workflow state machine

Modelled from the spec: the Python `Workflow` validator of the
order-fulfillment module is not among the provided sources; its transition
table is taken from spec §4.1 and from the diagram in
`src/logistic/order_fulfillment/README_PROMPT.md` (lines 43–47). -/

inductive OrderStatus where
  | CREATED | APPROVED | ALLOCATED | PICKING | PACKING | SHIPPED | DELIVERED | CANCELLED
deriving DecidableEq, Repr, Fintype

/-- Modelled from the spec: `can_transition(current, requested) -> bool`,
the pure adjacency-table check of spec §4.1 / the README workflow diagram.
The happy path is `CREATED → APPROVED → ALLOCATED → PICKING → PACKING →
SHIPPED → DELIVERED`; `CANCELLED` is reachable from every non-terminal
state. -/
def can_transition : OrderStatus → OrderStatus → Bool
  | .CREATED, .APPROVED => true
  | .APPROVED, .ALLOCATED => true
  | .ALLOCATED, .PICKING => true
  | .PICKING, .PACKING => true
  | .PACKING, .SHIPPED => true
  | .SHIPPED, .DELIVERED => true
  | .CREATED, .CANCELLED => true
  | .APPROVED, .CANCELLED => true
  | .ALLOCATED, .CANCELLED => true
  | .PICKING, .CANCELLED => true
  | .PACKING, .CANCELLED => true
  | .SHIPPED, .CANCELLED => true
  | _, _ => false

/-- `DELIVERED` and `CANCELLED` are the terminal statuses (spec §4.1). -/
def OrderStatus.isTerminal : OrderStatus → Bool
  | .DELIVERED => true
  | .CANCELLED => true
  | _ => false

/-- Position of a status along the forward workflow; every legal transition
strictly increases it, which makes the table acyclic. -/
def OrderStatus.rank : OrderStatus → Nat
  | .CREATED => 0
  | .APPROVED => 1
  | .ALLOCATED => 2
  | .PICKING => 3
  | .PACKING => 4
  | .SHIPPED => 5
  | .DELIVERED => 6
  | .CANCELLED => 7

/-! ## Fulfillment data model

Modelled from the spec (§3): the Django models of the order-fulfillment
module are not among the provided sources. Quantities, prices and weights
are `ℚ` (the spec's fixed-point decimals embed exactly in `ℚ`). -/

abbrev Sku := String
abbrev LocationId := String

structure FulfillItem where
  id : ℕ
  sku : Sku
  quantity : ℚ
  unit_price : ℚ
  unit_weight : ℚ
deriving DecidableEq, Repr

structure Order where
  id : ℕ
  warehouse_id : ℕ
  priority : String
  status : OrderStatus
  items : List FulfillItem
  total_amount : ℚ
deriving DecidableEq, Repr

inductive AllocStatus where
  | ACTIVE | RELEASED
deriving DecidableEq, Repr

structure Allocation where
  order_item_id : ℕ
  location : LocationId
  quantity : ℚ
  status : AllocStatus
deriving DecidableEq, Repr

inductive TaskStatus where
  | PENDING | IN_PROGRESS | COMPLETED | CANCELLED
deriving DecidableEq, Repr

structure PickingItem where
  order_item_id : ℕ
  quantity_expected : ℚ
  quantity_picked : ℚ
deriving DecidableEq, Repr

structure PickingTask where
  id : ℕ
  order_id : ℕ
  picker : Option ℕ
  status : TaskStatus
  items : List PickingItem
deriving DecidableEq, Repr

inductive PackageStatus where
  | OPEN | FINALIZED
deriving DecidableEq, Repr

structure PackageItem where
  order_item_id : ℕ
  quantity : ℚ
deriving DecidableEq, Repr

structure Package where
  id : ℕ
  length : ℚ
  width : ℚ
  height : ℚ
  empty_weight : ℚ
  max_weight : ℚ
  status : PackageStatus
  items : List PackageItem
deriving DecidableEq, Repr

structure PackingTask where
  id : ℕ
  order_id : ℕ
  status : TaskStatus
  packages : List Package
deriving DecidableEq, Repr

inductive ShipmentStatus where
  | CREATED | LABEL_GENERATED | IN_TRANSIT | DELIVERED | EXCEPTION
deriving DecidableEq, Repr

structure Shipment where
  id : ℕ
  order_id : ℕ
  carrier : String
  tracking : Option String
  status : ShipmentStatus
  packages : List ℕ
deriving DecidableEq, Repr

structure AuditEntry where
  entity : String
  entity_id : ℕ
  action : String
deriving DecidableEq, Repr

/-- The persistent state of the fulfillment module: every table the
services read or write. `AuditLog` is append-only (spec §3). -/
structure FState where
  orders : List Order
  allocations : List Allocation
  pickingTasks : List PickingTask
  packingTasks : List PackingTask
  shipments : List Shipment
  audit : List AuditEntry
deriving DecidableEq, Repr

/-- The empty store the module starts from. -/
def initState : FState := ⟨[], [], [], [], [], []⟩

/-! ### Derived quantities -/

/-- Sum of a rational-valued field over a list. -/
def sumQ (f : α → ℚ) (l : List α) : ℚ := (l.map f).sum

/-- All order items across all orders. -/
def itemsOf (s : FState) : List FulfillItem := (s.orders.map Order.items).flatten

/-- All picking items across all picking tasks. -/
def pickRows (s : FState) : List PickingItem := (s.pickingTasks.map PickingTask.items).flatten

/-- All package items across all packing tasks and packages. -/
def packRows (s : FState) : List PackageItem :=
  ((s.packingTasks.map PackingTask.packages).flatten.map Package.items).flatten

/-- Σ of ACTIVE allocation quantities for one order item. -/
def activeAllocated (s : FState) (i : ℕ) : ℚ :=
  sumQ Allocation.quantity
    (s.allocations.filter fun a => a.order_item_id = i ∧ a.status = .ACTIVE)

/-- Σ of allocation quantities for one order item over all Allocation rows;
rows are kept (marked RELEASED) when reservations are released (§4.3), so
this is the item's cumulative allocated quantity. -/
def totalAllocated (s : FState) (i : ℕ) : ℚ :=
  sumQ Allocation.quantity (s.allocations.filter fun a => a.order_item_id = i)

/-- Σ of quantity_picked over the item's picking rows. -/
def pickedQty (s : FState) (i : ℕ) : ℚ :=
  sumQ PickingItem.quantity_picked (pickRows s |>.filter fun p => p.order_item_id = i)

/-- Σ of quantity_expected over the item's picking rows. -/
def expectedQty (s : FState) (i : ℕ) : ℚ :=
  sumQ PickingItem.quantity_expected (pickRows s |>.filter fun p => p.order_item_id = i)

/-- Σ of packed quantity for the item across all packages. -/
def packedQty (s : FState) (i : ℕ) : ℚ :=
  sumQ PackageItem.quantity (packRows s |>.filter fun p => p.order_item_id = i)

/-! ## Service operations

Modelled from the spec (§4.2–§4.6): each operation is a function from the
store and its arguments to the updated store together with the outcome; a
failed operation returns the store unchanged (§7: every failure aborts the
enclosing transaction, leaving the aggregate in its last valid state). -/

inductive SvcError where
  /-- `ValidationError` — malformed input. -/
  | validation
  /-- `InvalidTransitionError` — operation does not match current status. -/
  | invalidTransition
  /-- `InsufficientInventoryError`, with the skus that were short. -/
  | insufficientInventory (short : List Sku)
  /-- `PackageOverweightError`. -/
  | packageOverweight
  /-- Referenced entity does not exist. -/
  | notFound
deriving DecidableEq, Repr

/-- Outcome of a service call: the possibly-updated store and either
success or a typed error. -/
abbrev SvcResult := FState × Except SvcError Unit

def orderById (s : FState) (oid : ℕ) : Option Order :=
  s.orders.find? (fun o => o.id == oid)

/-- Overwrite one order's status, leaving everything else untouched. -/
def setOrderStatus (s : FState) (oid : ℕ) (st : OrderStatus) : FState :=
  { s with orders := s.orders.map fun o => if o.id = oid then { o with status := st } else o }

/-- Update the row with the given key (primary keys are unique, so the
first match is the row). -/
def updateFirst (key : α → ℕ) (k : ℕ) (f : α → α) : List α → List α
  | [] => []
  | x :: xs => if key x = k then f x :: xs else x :: updateFirst key k f xs

/-- Next free order id. -/
def nextOrderId (s : FState) : ℕ := (s.orders.map Order.id).foldr max 0 + 1

/-- Every order-item id the store mentions anywhere (items, allocations,
picking rows, package rows); fresh ids are chosen above all of them. -/
def allItemIds (s : FState) : List ℕ :=
  (itemsOf s).map FulfillItem.id ++ s.allocations.map Allocation.order_item_id ++
    (pickRows s).map PickingItem.order_item_id ++ (packRows s).map PackageItem.order_item_id

def nextItemId (s : FState) : ℕ := (allItemIds s).foldr max 0 + 1

namespace OrderService

/-- One submitted item of `create_order`; `none` models a missing field in
the request payload. -/
structure ItemInput where
  sku : Option Sku
  quantity : Option ℚ
  unit_price : Option ℚ
  unit_weight : ℚ
deriving DecidableEq, Repr

/-- Spec §4.2 validation: sku, quantity and unit_price present and
quantity strictly positive. -/
def ItemInput.valid (ci : ItemInput) : Prop :=
  ci.sku.isSome ∧ ci.quantity.isSome ∧ ci.unit_price.isSome ∧ 0 < ci.quantity.getD 0

instance : DecidablePred ItemInput.valid := fun ci => by
  unfold ItemInput.valid; infer_instance

/-- Materialize the submitted items as OrderItems with consecutive ids. -/
def assignIds : ℕ → List ItemInput → List FulfillItem
  | _, [] => []
  | n, ci :: rest =>
    { id := n, sku := ci.sku.getD "", quantity := ci.quantity.getD 0,
      unit_price := ci.unit_price.getD 0, unit_weight := ci.unit_weight } :: assignIds (n+1) rest

/-- Modelled from the spec: `create_order(warehouse_id, priority, items[])`
(§4.2) — validates each item, computes the total as the sum of item
subtotals, persists Order + OrderItems in status CREATED; fails with
ValidationError on malformed input, persisting nothing. -/
def create_order (s : FState) (wid : ℕ) (priority : String)
    (inputs : List ItemInput) : SvcResult :=
  if ∀ ci ∈ inputs, ci.valid then
    let items := assignIds (nextItemId s) inputs
    let order : Order :=
      { id := nextOrderId s, warehouse_id := wid, priority := priority,
        status := .CREATED, items := items,
        total_amount := sumQ (fun it => it.quantity * it.unit_price) items }
    ({ s with orders := s.orders ++ [order],
              audit := s.audit ++ [⟨"Order", order.id, "CREATED"⟩] }, .ok ())
  else (s, .error .validation)

/-- Modelled from the spec: `approve(order_id)` (§4.2) — requires status
CREATED (checked through the workflow table), transitions to APPROVED,
writes an audit entry. -/
def approve (s : FState) (oid : ℕ) : SvcResult :=
  match orderById s oid with
  | none => (s, .error .notFound)
  | some o =>
    if can_transition o.status .APPROVED then
      ({ setOrderStatus s oid .APPROVED with
         audit := s.audit ++ [⟨"Order", oid, "APPROVED"⟩] }, .ok ())
    else (s, .error .invalidTransition)

end OrderService

namespace AllocationService

/-- One `{location, available_quantity}` row returned by
`InventoryAdapter.check_availability` (spec §6). -/
structure LocationStock where
  location : LocationId
  available : ℚ
deriving DecidableEq, Repr

/-- The adapter's view of availability, per sku. -/
abbrev AvailFn := Sku → List LocationStock

/-- Aggregate available quantity for a sku across returned locations. -/
def itemAvailable (avail : AvailFn) (sku : Sku) : ℚ :=
  sumQ LocationStock.available (avail sku)

/-- The skus of the items whose aggregate availability is short. -/
def shortSkus (avail : AvailFn) (items : List FulfillItem) : List Sku :=
  (items.filter fun it => itemAvailable avail it.sku < it.quantity).map FulfillItem.sku

/-- Split a quantity across locations in list order, greedily. -/
def greedyReserve : ℚ → List LocationStock → List (LocationId × ℚ)
  | _, [] => []
  | q, l :: rest =>
    if q ≤ l.available then [(l.location, q)]
    else (l.location, l.available) :: greedyReserve (q - l.available) rest

/-- Modelled from the spec: best-fit reservation of one item's quantity
(§4.3) — prefer the single location that can satisfy the whole quantity;
otherwise split across locations in descending available-quantity order. -/
def splitReservations (q : ℚ) (locs : List LocationStock) : List (LocationId × ℚ) :=
  match locs.find? (fun l => q ≤ l.available) with
  | some l => [(l.location, q)]
  | none => greedyReserve q (locs.mergeSort (fun a b => b.available ≤ a.available))

/-- The Allocation rows a successful `allocate_order` commits: one row per
(item, location) reservation, all ACTIVE. -/
def reservationRows (avail : AvailFn) (items : List FulfillItem) : List Allocation :=
  items.flatMap fun it =>
    (splitReservations it.quantity (avail it.sku)).map fun r =>
      { order_item_id := it.id, location := r.1, quantity := r.2, status := .ACTIVE }

/-- Modelled from the spec: `allocate_order` (§4.3) on the item list of one
order — all-or-nothing: if any item's aggregate availability is short the
whole call fails with `InsufficientInventoryError` naming the short skus
and commits nothing; otherwise it returns one Allocation row per
(item, location) reservation. -/
def allocate_order (avail : AvailFn) (items : List FulfillItem) :
    Except SvcError (List Allocation) :=
  match shortSkus avail items with
  | [] => .ok (reservationRows avail items)
  | shorts => .error (.insufficientInventory shorts)

/-- Modelled from the spec: `release_order` (§4.3) — every ACTIVE
Allocation tied to the given items is marked RELEASED (rows are kept). -/
def release_order (allocs : List Allocation) (ids : List ℕ) : List Allocation :=
  allocs.map fun a => if a.order_item_id ∈ ids then { a with status := .RELEASED } else a

end AllocationService

namespace OrderService

open AllocationService

/-- Modelled from the spec: `allocate(order_id)` (§4.2/§4.3) — requires the
workflow edge into ALLOCATED (i.e. status APPROVED); the all-or-nothing
atomic contract means no Allocation row can exist beforehand for the
order's items, which the service asserts; on success the rows and the
status transition commit together, on failure nothing is written. -/
def allocate (s : FState) (avail : AvailFn) (oid : ℕ) : SvcResult :=
  match orderById s oid with
  | none => (s, .error .notFound)
  | some o =>
    if can_transition o.status .ALLOCATED then
      if ∀ it ∈ o.items, (s.allocations.filter fun a => a.order_item_id = it.id) = [] then
        match allocate_order avail o.items with
        | .error e => (s, .error e)
        | .ok rows =>
          ({ setOrderStatus s oid .ALLOCATED with
             allocations := s.allocations ++ rows,
             audit := s.audit ++ [⟨"Order", oid, "ALLOCATED"⟩] }, .ok ())
      else (s, .error .validation)
    else (s, .error .invalidTransition)

/-- Modelled from the spec: `cancel(order_id, reason)` (§4.2) — requires a
non-terminal status; releases all ACTIVE allocations for the order before
marking it CANCELLED; succeeds even with no allocations; idempotent on an
already-CANCELLED order (success, no state change, no duplicate audit
entry); DELIVERED orders are immutable. -/
def cancel (s : FState) (oid : ℕ) (reason : String) : SvcResult :=
  match orderById s oid with
  | none => (s, .error .notFound)
  | some o =>
    if o.status = .CANCELLED then (s, .ok ())
    else if o.status = .DELIVERED then (s, .error .invalidTransition)
    else
      ({ setOrderStatus s oid .CANCELLED with
         allocations := release_order s.allocations (o.items.map FulfillItem.id),
         audit := s.audit ++ [⟨"Order", oid, "CANCELLED:" ++ reason⟩] }, .ok ())

end OrderService

namespace PickingService

/-- Next free picking-task id. -/
def nextTaskId (s : FState) : ℕ := (s.pickingTasks.map PickingTask.id).foldr max 0 + 1

/-- Modelled from the spec: `generate_tasks(order)` (§4.4) — one
PickingTask with one PickingItem per allocated OrderItem, quantity
expected = allocated quantity, quantity picked starting at zero. -/
def mkTask (s : FState) (o : Order) : PickingTask :=
  { id := nextTaskId s, order_id := o.id, picker := none, status := .PENDING,
    items := o.items.map fun it =>
      { order_item_id := it.id, quantity_expected := activeAllocated s it.id,
        quantity_picked := 0 } }

def taskById (s : FState) (tid : ℕ) : Option PickingTask :=
  s.pickingTasks.find? (fun t => t.id == tid)

/-- Replace one picking task (by id). -/
def setTask (s : FState) (tid : ℕ) (f : PickingTask → PickingTask) : FState :=
  { s with pickingTasks := updateFirst PickingTask.id tid f s.pickingTasks }

/-- Modelled from the spec: `assign_picker(task_id, picker_id)` (§4.4) —
requires status PENDING; sets the picker and moves to IN_PROGRESS. -/
def assign_picker (s : FState) (tid pid : ℕ) : SvcResult :=
  match taskById s tid with
  | none => (s, .error .notFound)
  | some t =>
    if t.status = .PENDING then
      (setTask s tid fun t0 => { t0 with picker := some pid, status := .IN_PROGRESS }, .ok ())
    else (s, .error .invalidTransition)

/-- Add `q` to the picked quantity of the rows for one order item. -/
def bump (items : List PickingItem) (i : ℕ) (q : ℚ) : List PickingItem :=
  items.map fun pi =>
    if pi.order_item_id = i then { pi with quantity_picked := pi.quantity_picked + q } else pi

/-- Apply the updates of one `update_picked` call in sequence; `none` when
some update is invalid (negative, or pushing a row past its cap). -/
def applyUpdates : List PickingItem → List (ℕ × ℚ) → Option (List PickingItem)
  | items, [] => some items
  | items, (i, q) :: rest =>
    if 0 ≤ q ∧ ∀ pi ∈ items, pi.order_item_id = i →
        pi.quantity_picked + q ≤ pi.quantity_expected then
      applyUpdates (bump items i q) rest
    else none

/-- Modelled from the spec: `update_picked(task_id, item_updates[])`
(§4.4) — each update must be ≥ 0 and must keep the accumulated picked
quantity within quantity_expected, else the whole call fails with
ValidationError and writes nothing; updates accumulate. -/
def update_picked (s : FState) (tid : ℕ) (updates : List (ℕ × ℚ)) : SvcResult :=
  match taskById s tid with
  | none => (s, .error .notFound)
  | some t =>
    match applyUpdates t.items updates with
    | none => (s, .error .validation)
    | some items2 => (setTask s tid fun t0 => { t0 with items := items2 }, .ok ())

/-- Modelled from the spec: `complete(task_id)` (§4.4) — records the task
COMPLETED (short-picks allowed); does not itself advance the order. -/
def complete (s : FState) (tid : ℕ) : SvcResult :=
  match taskById s tid with
  | none => (s, .error .notFound)
  | some t =>
    if t.status = .COMPLETED then (s, .error .invalidTransition)
    else (setTask s tid fun t0 => { t0 with status := .COMPLETED }, .ok ())

end PickingService

namespace PackingService

def nextTaskId (s : FState) : ℕ := (s.packingTasks.map PackingTask.id).foldr max 0 + 1

def nextPackageId (s : FState) : ℕ :=
  (((s.packingTasks.map PackingTask.packages).flatten).map Package.id).foldr max 0 + 1

def taskById (s : FState) (tid : ℕ) : Option PackingTask :=
  s.packingTasks.find? (fun t => t.id == tid)

def setTask (s : FState) (tid : ℕ) (f : PackingTask → PackingTask) : FState :=
  { s with packingTasks := updateFirst PackingTask.id tid f s.packingTasks }

/-- Modelled from the spec: `create_package(task_id, package_spec)` (§4.5)
— validates dimensions and max_weight strictly positive; creates a Package
in OPEN status with no contents. -/
def create_package (s : FState) (tid : ℕ) (len wid hei ew mw : ℚ) : SvcResult :=
  match taskById s tid with
  | none => (s, .error .notFound)
  | some _ =>
    if 0 < len ∧ 0 < wid ∧ 0 < hei ∧ 0 < mw then
      (setTask s tid fun t0 =>
        { t0 with packages := t0.packages ++
            [{ id := nextPackageId s, length := len, width := wid, height := hei,
               empty_weight := ew, max_weight := mw, status := .OPEN, items := [] }] }, .ok ())
    else (s, .error .validation)

/-- Unit weight of an order item, looked up in the order items. -/
def weightOf (s : FState) (i : ℕ) : ℚ :=
  match (itemsOf s).find? (fun it => it.id == i) with
  | some it => it.unit_weight
  | none => 0

/-- Stored weight of a package: empty weight plus Σ item_weight×quantity
over its contents (§4.5). -/
def packageWeight (s : FState) (pkg : Package) : ℚ :=
  pkg.empty_weight + sumQ (fun pi => weightOf s pi.order_item_id * pi.quantity) pkg.items

/-- Modelled from the spec: `add_item(task_id, package_id, order_item_id,
quantity)` (§4.5) — the package must be OPEN; the quantity must be
positive and at most picked − already packed across all packages for the
item; the projected total weight including the new item must not exceed
max_weight, else `PackageOverweightError`; a failed call leaves the
package exactly as it was. -/
def add_item (s : FState) (tid pkgid itemid : ℕ) (q : ℚ) : SvcResult :=
  match taskById s tid with
  | none => (s, .error .notFound)
  | some t =>
    match t.packages.find? (fun p => p.id == pkgid) with
    | none => (s, .error .notFound)
    | some pkg =>
      if pkg.status = .OPEN then
        if 0 < q ∧ q ≤ pickedQty s itemid - packedQty s itemid then
          if packageWeight s pkg + weightOf s itemid * q ≤ pkg.max_weight then
            (setTask s tid fun t0 =>
              { t0 with packages :=
                            (updateFirst Package.id pkgid
                              (fun p => { p with items := p.items ++
                                [{ order_item_id := itemid, quantity := q }] })
                              t0.packages) }, .ok ())
          else (s, .error .packageOverweight)
        else (s, .error .validation)
      else (s, .error .invalidTransition)

/-- Modelled from the spec: `finalize_package(task_id, package_id)` (§4.5)
— transitions the package to FINALIZED; no further mutation permitted. -/
def finalize_package (s : FState) (tid pkgid : ℕ) : SvcResult :=
  match taskById s tid with
  | none => (s, .error .notFound)
  | some t =>
    match t.packages.find? (fun p => p.id == pkgid) with
    | none => (s, .error .notFound)
    | some pkg =>
      if pkg.status = .OPEN then
        (setTask s tid fun t0 =>
          { t0 with packages :=
                        (updateFirst Package.id pkgid
                          (fun p => { p with status := .FINALIZED }) t0.packages) }, .ok ())
      else (s, .error .invalidTransition)

/-- Modelled from the spec: `complete(task_id)` (§4.5) — requires every
order item fully packed (packed = picked) and every package FINALIZED;
transitions the task to COMPLETED. -/
def complete (s : FState) (tid : ℕ) : SvcResult :=
  match taskById s tid with
  | none => (s, .error .notFound)
  | some t =>
    match orderById s t.order_id with
    | none => (s, .error .notFound)
    | some o =>
      if (∀ it ∈ o.items, packedQty s it.id = pickedQty s it.id) ∧
          (∀ p ∈ t.packages, p.status = .FINALIZED) ∧ t.status ≠ .COMPLETED then
        (setTask s tid fun t0 => { t0 with status := .COMPLETED }, .ok ())
      else (s, .error .invalidTransition)

end PackingService

namespace ShippingService

def shipmentById (s : FState) (shid : ℕ) : Option Shipment :=
  s.shipments.find? (fun sh => sh.id == shid)

def nextShipmentId (s : FState) : ℕ := (s.shipments.map Shipment.id).foldr max 0 + 1

def setShipment (s : FState) (shid : ℕ) (f : Shipment → Shipment) : FState :=
  { s with shipments := s.shipments.map fun sh => if sh.id = shid then f sh else sh }

/-- A package id is shippable for an order when some packing task of the
order holds a FINALIZED package with that id (§4.6). -/
def packageShippable (s : FState) (oid pid : ℕ) : Prop :=
  ∃ t ∈ s.packingTasks, t.order_id = oid ∧
    ∃ p ∈ t.packages, p.id = pid ∧ p.status = .FINALIZED

instance (s : FState) (oid pid : ℕ) : Decidable (packageShippable s oid pid) := by
  unfold packageShippable; infer_instance

/-- Modelled from the spec: `assign_tracking(shipment_id, tracking_number)`
(§4.6) — sets the tracking number, transitions CREATED→LABEL_GENERATED. -/
def assign_tracking (s : FState) (shid : ℕ) (tn : String) : SvcResult :=
  match shipmentById s shid with
  | none => (s, .error .notFound)
  | some sh =>
    if sh.status = .CREATED then
      (setShipment s shid fun sh0 =>
        { sh0 with tracking := some tn, status := .LABEL_GENERATED }, .ok ())
    else (s, .error .invalidTransition)

/-- The forward-only shipment status sequence of §4.6, with EXCEPTION
reachable from every non-terminal shipment status. -/
def shipmentForward : ShipmentStatus → ShipmentStatus → Bool
  | .CREATED, .LABEL_GENERATED => true
  | .LABEL_GENERATED, .IN_TRANSIT => true
  | .IN_TRANSIT, .DELIVERED => true
  | .CREATED, .EXCEPTION => true
  | .LABEL_GENERATED, .EXCEPTION => true
  | .IN_TRANSIT, .EXCEPTION => true
  | _, _ => false

/-- Modelled from the spec: `update_status(shipment_id, new_status, notes)`
(§4.6) — enforces the forward-only sequence; on DELIVERED also advances
the order to DELIVERED (checked against the workflow table). -/
def update_status (s : FState) (shid : ℕ) (st : ShipmentStatus) : SvcResult :=
  match shipmentById s shid with
  | none => (s, .error .notFound)
  | some sh =>
    if shipmentForward sh.status st then
      if st = .DELIVERED then
        match orderById s sh.order_id with
        | none => (s, .error .notFound)
        | some o =>
          if can_transition o.status .DELIVERED then
            (setOrderStatus (setShipment s shid fun sh0 => { sh0 with status := st })
              sh.order_id .DELIVERED, .ok ())
          else (s, .error .invalidTransition)
      else (setShipment s shid fun sh0 => { sh0 with status := st }, .ok ())
    else (s, .error .invalidTransition)

end ShippingService

namespace OrderService

/-- Modelled from the spec: `generate_picking(order_id)` (§4.2/§4.4) —
requires the workflow edge into PICKING (i.e. status ALLOCATED) and, the
tasks being generated from the allocations exactly once, that no picking
row already references the order's items; creates the picking task and
advances the order. -/
def generate_picking (s : FState) (oid : ℕ) : SvcResult :=
  match orderById s oid with
  | none => (s, .error .notFound)
  | some o =>
    if can_transition o.status .PICKING then
      if ∀ it ∈ o.items, ((pickRows s).filter fun p => p.order_item_id = it.id) = [] then
        ({ setOrderStatus s oid .PICKING with
           pickingTasks := s.pickingTasks ++ [PickingService.mkTask s o],
           audit := s.audit ++ [⟨"Order", oid, "PICKING"⟩] }, .ok ())
      else (s, .error .validation)
    else (s, .error .invalidTransition)

/-- Modelled from the spec: `create_packing(order_id)` (§4.2/§4.5) —
requires the workflow edge into PACKING (i.e. status PICKING); creates an
empty packing task and advances the order. -/
def create_packing (s : FState) (oid : ℕ) : SvcResult :=
  match orderById s oid with
  | none => (s, .error .notFound)
  | some o =>
    if can_transition o.status .PACKING then
      ({ setOrderStatus s oid .PACKING with
         packingTasks := s.packingTasks ++
           [{ id := PackingService.nextTaskId s, order_id := oid, status := .PENDING,
              packages := [] }],
         audit := s.audit ++ [⟨"Order", oid, "PACKING"⟩] }, .ok ())
    else (s, .error .invalidTransition)

/-- Modelled from the spec: `create_shipment(order_id, carrier_info)`
(§4.2/§4.6) — requires the workflow edge into SHIPPED (i.e. status
PACKING); every referenced package must be FINALIZED and belong to one of
the order's packing tasks; creates the Shipment in CREATED status and
advances the order. -/
def create_shipment (s : FState) (oid : ℕ) (carrier : String)
    (pkgids : List ℕ) : SvcResult :=
  match orderById s oid with
  | none => (s, .error .notFound)
  | some o =>
    if can_transition o.status .SHIPPED then
      if ∀ pid ∈ pkgids, ShippingService.packageShippable s oid pid then
        ({ setOrderStatus s oid .SHIPPED with
           shipments := s.shipments ++
             [{ id := ShippingService.nextShipmentId s, order_id := oid, carrier := carrier,
                tracking := none, status := .CREATED, packages := pkgids }],
           audit := s.audit ++ [⟨"Order", oid, "SHIPPED"⟩] }, .ok ())
      else (s, .error .validation)
    else (s, .error .invalidTransition)

end OrderService

/-! ## The fulfillment lifecycle as a transition system

One `Step` is one invocation of one service operation (successful or
failed — a failed call returns the store unchanged). The `allocate` step
carries the adapter contract of §6 that `check_availability` reports
non-negative available quantities. -/

/-- Availability rows report non-negative quantities (adapter contract,
spec §6). -/
def AvailOk (avail : AllocationService.AvailFn) : Prop :=
  ∀ sku, ∀ l ∈ avail sku, 0 ≤ l.available

inductive Step : FState → FState → Prop where
  | create_order (s : FState) (wid : ℕ) (pr : String) (inputs : List OrderService.ItemInput) :
      Step s (OrderService.create_order s wid pr inputs).1
  | approve (s : FState) (oid : ℕ) :
      Step s (OrderService.approve s oid).1
  | allocate (s : FState) (avail : AllocationService.AvailFn) (oid : ℕ)
      (hav : AvailOk avail) :
      Step s (OrderService.allocate s avail oid).1
  | cancel (s : FState) (oid : ℕ) (reason : String) :
      Step s (OrderService.cancel s oid reason).1
  | generate_picking (s : FState) (oid : ℕ) :
      Step s (OrderService.generate_picking s oid).1
  | assign_picker (s : FState) (tid pid : ℕ) :
      Step s (PickingService.assign_picker s tid pid).1
  | update_picked (s : FState) (tid : ℕ) (updates : List (ℕ × ℚ)) :
      Step s (PickingService.update_picked s tid updates).1
  | complete_picking (s : FState) (tid : ℕ) :
      Step s (PickingService.complete s tid).1
  | create_packing (s : FState) (oid : ℕ) :
      Step s (OrderService.create_packing s oid).1
  | create_package (s : FState) (tid : ℕ) (len wid hei ew mw : ℚ) :
      Step s (PackingService.create_package s tid len wid hei ew mw).1
  | add_item (s : FState) (tid pkgid itemid : ℕ) (q : ℚ) :
      Step s (PackingService.add_item s tid pkgid itemid q).1
  | finalize_package (s : FState) (tid pkgid : ℕ) :
      Step s (PackingService.finalize_package s tid pkgid).1
  | complete_packing (s : FState) (tid : ℕ) :
      Step s (PackingService.complete s tid).1
  | create_shipment (s : FState) (oid : ℕ) (carrier : String) (pkgids : List ℕ) :
      Step s (OrderService.create_shipment s oid carrier pkgids).1
  | assign_tracking (s : FState) (shid : ℕ) (tn : String) :
      Step s (ShippingService.assign_tracking s shid tn).1
  | update_shipment_status (s : FState) (shid : ℕ) (st : ShipmentStatus) :
      Step s (ShippingService.update_status s shid st).1

/-- A store is reachable when some sequence of service calls produces it
from the empty store. -/
def Reachable (s : FState) : Prop := Relation.ReflTransGen Step initState s

/-- The quantity-reconciliation invariant of spec §8, together with the
auxiliary facts needed to push it through every operation:
row-level sign and cap facts, uniqueness of ids, and the per-item
inequalities. `Σ picked ≤ Σ allocated` reads the allocated quantity over
all Allocation rows: §4.3 keeps released rows (marked RELEASED), and §3
words the ACTIVE restriction only for the ordered-quantity bound. -/
structure Inv (s : FState) : Prop where
  itemIdsNodup : ((itemsOf s).map FulfillItem.id).Nodup
  itemPos : ∀ it ∈ itemsOf s, 0 < it.quantity
  allocNonneg : ∀ a ∈ s.allocations, 0 ≤ a.quantity
  pickRowNonneg : ∀ p ∈ pickRows s, 0 ≤ p.quantity_picked
  pickRowCap : ∀ p ∈ pickRows s, p.quantity_picked ≤ p.quantity_expected
  pickRowExpNonneg : ∀ p ∈ pickRows s, 0 ≤ p.quantity_expected
  packRowNonneg : ∀ p ∈ packRows s, 0 ≤ p.quantity
  allocLe : ∀ it ∈ itemsOf s, activeAllocated s it.id ≤ it.quantity
  expLe : ∀ it ∈ itemsOf s, expectedQty s it.id ≤ totalAllocated s it.id
  packLe : ∀ it ∈ itemsOf s, packedQty s it.id ≤ pickedQty s it.id

/-- Rows contributed by one packing task. -/
def packTaskRows (t : PackingTask) : List PackageItem :=
  (t.packages.map Package.items).flatten

/-! ## Concrete fixtures used to instantiate the theorems -/

def sampleItemInput : OrderService.ItemInput := ⟨some "SKU1", some 5, some 2, 1⟩

/-- The store after creating one order (id 1) with one item (id 1,
quantity 5 at price 2). -/
def S1 : FState := (OrderService.create_order initState 1 "HIGH" [sampleItemInput]).1

/-- `S1` after approving order 1. -/
def S2a : FState := (OrderService.approve S1 1).1

/-- A mock adapter with only 3 units at location L1 for every sku. -/
def availLow : AllocationService.AvailFn := fun _ => [⟨"L1", 3⟩]

/-- A mock adapter with 10 units at location L1 for every sku. -/
def availOk : AllocationService.AvailFn := fun _ => [⟨"L1", 10⟩]

/-- A packing fixture: order item 42 (unit weight 2) picked 5; one open
package (empty weight 1, max weight 3). -/
def sW : FState :=
  { orders := [⟨1, 1, "LOW", .PACKING, [⟨42, "S", 5, 2, 2⟩], 10⟩],
    allocations := [],
    pickingTasks := [⟨1, 1, none, .COMPLETED, [⟨42, 5, 5⟩]⟩],
    packingTasks := [⟨1, 1, .PENDING, [⟨1, 1, 1, 1, 1, 3, .OPEN, []⟩]⟩],
    shipments := [], audit := [] }

/-! ## Sum lemmas -/

theorem sumQ_nil (f : α → ℚ) : sumQ f [] = 0 := rfl

theorem sumQ_cons (f : α → ℚ) (a : α) (l : List α) :
    sumQ f (a :: l) = f a + sumQ f l := by
  simp [sumQ]

theorem sumQ_append (f : α → ℚ) (l1 l2 : List α) :
    sumQ f (l1 ++ l2) = sumQ f l1 + sumQ f l2 := by
  simp [sumQ]

theorem sumQ_nonneg {f : α → ℚ} {l : List α} (h : ∀ x ∈ l, 0 ≤ f x) :
    0 ≤ sumQ f l := by
  induction l with
  | nil => simp [sumQ]
  | cons a l ih =>
    rw [sumQ_cons]
    have ha := h a (List.mem_cons_self a l)
    have hl := ih fun x hx => h x (List.mem_cons_of_mem a hx)
    linarith

theorem sumQ_le_sumQ {f g : α → ℚ} {l : List α} (h : ∀ x ∈ l, f x ≤ g x) :
    sumQ f l ≤ sumQ g l := by
  induction l with
  | nil => simp [sumQ]
  | cons a l ih =>
    rw [sumQ_cons, sumQ_cons]
    have ha := h a (List.mem_cons_self a l)
    have hl := ih fun x hx => h x (List.mem_cons_of_mem a hx)
    linarith

/-- Weakening the filter can only lose non-negative contributions. -/
theorem sumQ_filter_le_of_imp {f : α → ℚ} {p q : α → Bool} {l : List α}
    (hf : ∀ x ∈ l, 0 ≤ f x) (himp : ∀ x ∈ l, p x = true → q x = true) :
    sumQ f (l.filter p) ≤ sumQ f (l.filter q) := by
  induction l with
  | nil => simp [sumQ]
  | cons a l ih =>
    have hfa := hf a (List.mem_cons_self a l)
    have hrec := ih (fun x hx => hf x (List.mem_cons_of_mem a hx))
      (fun x hx => himp x (List.mem_cons_of_mem a hx))
    by_cases hp : p a = true
    · have hq := himp a (List.mem_cons_self a l) hp
      simp only [List.filter_cons, hp, hq, if_true]
      rw [sumQ_cons, sumQ_cons]
      linarith
    · have hp2 : p a = false := Bool.eq_false_iff.mpr hp
      by_cases hq : q a = true
      · simp only [List.filter_cons, hp2, hq]
        simp only [Bool.false_eq_true, if_false, if_true]
        rw [sumQ_cons]
        linarith
      · have hq2 : q a = false := Bool.eq_false_iff.mpr hq
        simp only [List.filter_cons, hp2, hq2]
        simp only [Bool.false_eq_true, if_false]
        exact hrec

/-- A filtered sum over a mapped list, when the map changes neither the
filter's verdict nor the summed value. -/
theorem sumQ_filter_map_eq {f : α → ℚ} {p : α → Bool} {g : α → α} {l : List α}
    (hp : ∀ x ∈ l, p (g x) = p x) (hf : ∀ x ∈ l, f (g x) = f x) :
    sumQ f ((l.map g).filter p) = sumQ f (l.filter p) := by
  induction l with
  | nil => simp
  | cons a l ih =>
    have hrec := ih (fun x hx => hp x (List.mem_cons_of_mem a hx))
      (fun x hx => hf x (List.mem_cons_of_mem a hx))
    have hpa := hp a (List.mem_cons_self a l)
    have hfa := hf a (List.mem_cons_self a l)
    by_cases hc : p a = true
    · simp only [List.map_cons, List.filter_cons, hc, hpa, if_true]
      rw [sumQ_cons, sumQ_cons, hrec, hfa]
    · have hc2 : p a = false := Bool.eq_false_iff.mpr hc
      simp only [List.map_cons, List.filter_cons, hc2, hpa, Bool.false_eq_true, if_false]
      exact hrec

theorem sumQ_filter_eq_zero {f : α → ℚ} {p : α → Bool} {l : List α}
    (h : l.filter p = []) : sumQ f (l.filter p) = 0 := by
  rw [h]; rfl

/-- Members of a list are bounded by its `foldr max 0`. -/
theorem le_foldr_max {l : List ℕ} {a : ℕ} (h : a ∈ l) : a ≤ l.foldr max 0 := by
  induction l with
  | nil => cases h
  | cons b l ih =>
    rcases List.mem_cons.mp h with rfl | h2
    · exact le_max_left _ _
    · exact le_trans (ih h2) (le_max_right _ _)

/-! ## Congruence of the derived quantities -/

theorem activeAllocated_congr {s s' : FState} (h : s'.allocations = s.allocations) (i : ℕ) :
    activeAllocated s' i = activeAllocated s i := by
  unfold activeAllocated; rw [h]

theorem totalAllocated_congr {s s' : FState} (h : s'.allocations = s.allocations) (i : ℕ) :
    totalAllocated s' i = totalAllocated s i := by
  unfold totalAllocated; rw [h]

theorem pickedQty_congr {s s' : FState} (h : pickRows s' = pickRows s) (i : ℕ) :
    pickedQty s' i = pickedQty s i := by
  unfold pickedQty; rw [h]

theorem expectedQty_congr {s s' : FState} (h : pickRows s' = pickRows s) (i : ℕ) :
    expectedQty s' i = expectedQty s i := by
  unfold expectedQty; rw [h]

theorem packedQty_congr {s s' : FState} (h : packRows s' = packRows s) (i : ℕ) :
    packedQty s' i = packedQty s i := by
  unfold packedQty; rw [h]

/-- An operation that touches no quantity-bearing row preserves the
invariant. -/
theorem inv_transfer {s s' : FState}
    (hitems : itemsOf s' = itemsOf s)
    (hallocs : s'.allocations = s.allocations)
    (hpick : pickRows s' = pickRows s)
    (hpack : packRows s' = packRows s)
    (h : Inv s) : Inv s' := by
  refine ⟨?_, ?_, ?_, ?_, ?_, ?_, ?_, ?_, ?_, ?_⟩
  · rw [hitems]; exact h.itemIdsNodup
  · rw [hitems]; exact h.itemPos
  · rw [hallocs]; exact h.allocNonneg
  · rw [hpick]; exact h.pickRowNonneg
  · rw [hpick]; exact h.pickRowCap
  · rw [hpick]; exact h.pickRowExpNonneg
  · rw [hpack]; exact h.packRowNonneg
  · intro it hit
    rw [hitems] at hit
    rw [activeAllocated_congr hallocs]
    exact h.allocLe it hit
  · intro it hit
    rw [hitems] at hit
    rw [expectedQty_congr hpick, totalAllocated_congr hallocs]
    exact h.expLe it hit
  · intro it hit
    rw [hitems] at hit
    rw [packedQty_congr hpack, pickedQty_congr hpick]
    exact h.packLe it hit

/-! ## Structural lemmas about the common update shapes -/

theorem itemsOf_orders_map {s : FState} {g : Order → Order}
    (h : ∀ o, (g o).items = o.items) :
    itemsOf { s with orders := s.orders.map g } = itemsOf s := by
  unfold itemsOf
  simp only [List.map_map]
  congr 1
  exact List.map_congr_left fun o _ => by simp [Function.comp, h o]

theorem orderIds_orders_map {s : FState} {g : Order → Order}
    (h : ∀ o, (g o).id = o.id) :
    (s.orders.map g).map Order.id = s.orders.map Order.id := by
  simp only [List.map_map]
  exact List.map_congr_left fun o _ => by simp [Function.comp, h o]

theorem itemsOf_setOrderStatus (s : FState) (oid : ℕ) (st : OrderStatus) :
    itemsOf (setOrderStatus s oid st) = itemsOf s := by
  unfold setOrderStatus
  exact itemsOf_orders_map fun o => by by_cases hc : o.id = oid <;> simp [hc]

theorem orderIds_setOrderStatus (s : FState) (oid : ℕ) (st : OrderStatus) :
    (setOrderStatus s oid st).orders.map Order.id = s.orders.map Order.id := by
  unfold setOrderStatus
  exact orderIds_orders_map fun o => by by_cases hc : o.id = oid <;> simp [hc]

/-- Rows contributed by one picking task. -/
theorem pickRows_tasks_map {s : FState} {g : PickingTask → PickingTask}
    (h : ∀ t, (g t).items = t.items) :
    pickRows { s with pickingTasks := s.pickingTasks.map g } = pickRows s := by
  unfold pickRows
  simp only [List.map_map]
  congr 1
  exact List.map_congr_left fun t _ => by simp [Function.comp, h t]

theorem packRows_eq_flatten (s : FState) :
    packRows s = (s.packingTasks.map packTaskRows).flatten := by
  unfold packRows packTaskRows
  induction s.packingTasks with
  | nil => rfl
  | cons t ts ih =>
    simp only [List.map_cons, List.flatten_cons, List.map_append, List.flatten_append]
    rw [ih]

theorem packRows_tasks_map {s : FState} {g : PackingTask → PackingTask}
    (h : ∀ t, packTaskRows (g t) = packTaskRows t) :
    packRows { s with packingTasks := s.packingTasks.map g } = packRows s := by
  rw [packRows_eq_flatten, packRows_eq_flatten]
  simp only [List.map_map]
  congr 1
  exact List.map_congr_left fun t _ => by simp [Function.comp, h t]

/-- `updateFirst` either finds no row (and changes nothing) or rewrites
exactly one row, splitting the list around it. -/
theorem updateFirst_decomp (key : α → ℕ) (k : ℕ) (f : α → α) (l : List α) :
    updateFirst key k f l = l ∨
    ∃ pre t post, l = pre ++ t :: post ∧ key t = k ∧
      updateFirst key k f l = pre ++ f t :: post := by
  induction l with
  | nil => left; rfl
  | cons x xs ih =>
    by_cases hx : key x = k
    · right
      exact ⟨[], x, xs, rfl, hx, by simp [updateFirst, hx]⟩
    · rcases ih with heq | ⟨pre, t, post, hl, hk, heq⟩
      · left; simp [updateFirst, hx, heq]
      · right
        exact ⟨x :: pre, t, post, by simp [hl], hk, by simp [updateFirst, hx, heq]⟩

theorem pickRows_congr {s s' : FState} (h : s'.pickingTasks = s.pickingTasks) :
    pickRows s' = pickRows s := by
  unfold pickRows; rw [h]

theorem packRows_congr {s s' : FState} (h : s'.packingTasks = s.packingTasks) :
    packRows s' = packRows s := by
  unfold packRows; rw [h]

theorem itemsOf_congr {s s' : FState} (h : s'.orders = s.orders) :
    itemsOf s' = itemsOf s := by
  unfold itemsOf; rw [h]

/-- A picking-task update that leaves every task's item rows unchanged
leaves `pickRows` unchanged. -/
theorem pickRows_setTask_items_eq {s : FState} {tid : ℕ} {f : PickingTask → PickingTask}
    (h : ∀ t, (f t).items = t.items) :
    pickRows (PickingService.setTask s tid f) = pickRows s := by
  show ((updateFirst PickingTask.id tid f s.pickingTasks).map PickingTask.items).flatten
      = pickRows s
  rcases updateFirst_decomp PickingTask.id tid f s.pickingTasks with heq |
      ⟨pre, t, post, hl, hk, heq⟩
  · rw [heq]; rfl
  · rw [heq]
    unfold pickRows
    rw [hl]
    simp [h t]

/-- A packing-task update that leaves every package's item rows unchanged
leaves `packRows` unchanged. -/
theorem packRows_setTask_rows_eq {s : FState} {tid : ℕ} {f : PackingTask → PackingTask}
    (h : ∀ t, packTaskRows (f t) = packTaskRows t) :
    packRows (PackingService.setTask s tid f) = packRows s := by
  have hshape : (PackingService.setTask s tid f).packingTasks
      = updateFirst PackingTask.id tid f s.packingTasks := rfl
  rw [packRows_eq_flatten, packRows_eq_flatten, hshape]
  rcases updateFirst_decomp PackingTask.id tid f s.packingTasks with heq |
      ⟨pre, t, post, hl, hk, heq⟩
  · rw [heq]
  · rw [heq, hl]
    simp [h t]

/-! ## Invariant preservation, operation by operation -/

theorem inv_approve (s : FState) (oid : ℕ) (h : Inv s) :
    Inv (OrderService.approve s oid).1 := by
  unfold OrderService.approve
  split
  · exact h
  · split
    · refine inv_transfer ?_ ?_ ?_ ?_ h
      · exact itemsOf_setOrderStatus s oid .APPROVED
      · rfl
      · rfl
      · rfl
    · exact h

theorem inv_assign_picker (s : FState) (tid pid : ℕ) (h : Inv s) :
    Inv (PickingService.assign_picker s tid pid).1 := by
  unfold PickingService.assign_picker
  split
  · exact h
  · split
    · refine inv_transfer ?_ ?_ ?_ ?_ h
      · rfl
      · rfl
      · exact pickRows_setTask_items_eq fun t0 => rfl
      · rfl
    · exact h

theorem inv_complete_picking (s : FState) (tid : ℕ) (h : Inv s) :
    Inv (PickingService.complete s tid).1 := by
  unfold PickingService.complete
  split
  · exact h
  · split
    · exact h
    · refine inv_transfer ?_ ?_ ?_ ?_ h
      · rfl
      · rfl
      · exact pickRows_setTask_items_eq fun t0 => rfl
      · rfl

theorem inv_finalize_package (s : FState) (tid pkgid : ℕ) (h : Inv s) :
    Inv (PackingService.finalize_package s tid pkgid).1 := by
  unfold PackingService.finalize_package
  split
  · exact h
  · split
    · exact h
    · split
      · refine inv_transfer ?_ ?_ ?_ ?_ h
        · rfl
        · rfl
        · rfl
        · refine packRows_setTask_rows_eq fun t0 => ?_
          unfold packTaskRows
          rcases updateFirst_decomp Package.id pkgid
              (fun p => { p with status := .FINALIZED }) t0.packages with heq |
              ⟨pre, p0, post, hl, hk, heq⟩
          · rw [heq]
          · rw [heq, hl]; simp
      · exact h

theorem inv_complete_packing (s : FState) (tid : ℕ) (h : Inv s) :
    Inv (PackingService.complete s tid).1 := by
  unfold PackingService.complete
  split
  · exact h
  · split
    · exact h
    · split
      · refine inv_transfer ?_ ?_ ?_ ?_ h
        · rfl
        · rfl
        · rfl
        · exact packRows_setTask_rows_eq fun t0 => rfl
      · exact h

theorem inv_create_packing (s : FState) (oid : ℕ) (h : Inv s) :
    Inv (OrderService.create_packing s oid).1 := by
  unfold OrderService.create_packing
  split
  · exact h
  · split
    · refine inv_transfer ?_ ?_ ?_ ?_ h
      · exact itemsOf_setOrderStatus s oid .PACKING
      · rfl
      · rfl
      · rw [packRows_eq_flatten, packRows_eq_flatten]
        simp [packTaskRows]
    · exact h

theorem inv_create_package (s : FState) (tid : ℕ) (len wid hei ew mw : ℚ) (h : Inv s) :
    Inv (PackingService.create_package s tid len wid hei ew mw).1 := by
  unfold PackingService.create_package
  split
  · exact h
  · split
    · refine inv_transfer ?_ ?_ ?_ ?_ h
      · rfl
      · rfl
      · rfl
      · refine packRows_setTask_rows_eq fun t0 => ?_
        unfold packTaskRows
        simp
    · exact h

theorem inv_create_shipment (s : FState) (oid : ℕ) (carrier : String) (pkgids : List ℕ)
    (h : Inv s) : Inv (OrderService.create_shipment s oid carrier pkgids).1 := by
  unfold OrderService.create_shipment
  split
  · exact h
  · split
    · split
      · refine inv_transfer ?_ ?_ ?_ ?_ h
        · exact itemsOf_setOrderStatus s oid .SHIPPED
        · rfl
        · rfl
        · rfl
      · exact h
    · exact h

theorem inv_assign_tracking (s : FState) (shid : ℕ) (tn : String) (h : Inv s) :
    Inv (ShippingService.assign_tracking s shid tn).1 := by
  unfold ShippingService.assign_tracking
  split
  · exact h
  · split
    · refine inv_transfer ?_ ?_ ?_ ?_ h <;> rfl
    · exact h

theorem inv_update_shipment_status (s : FState) (shid : ℕ) (st : ShipmentStatus) (h : Inv s) :
    Inv (ShippingService.update_status s shid st).1 := by
  unfold ShippingService.update_status
  split
  · exact h
  · split
    · split
      · split
        · exact h
        · split
          · refine inv_transfer ?_ ?_ ?_ ?_ h
            · exact itemsOf_setOrderStatus _ _ .DELIVERED
            · rfl
            · rfl
            · rfl
          · exact h
      · refine inv_transfer ?_ ?_ ?_ ?_ h <;> rfl
    · exact h

/-! ## Further list utilities -/

theorem sumQ_eq_zero {f : α → ℚ} {l : List α} (h : ∀ x ∈ l, f x = 0) :
    sumQ f l = 0 := by
  induction l with
  | nil => rfl
  | cons a l ih =>
    rw [sumQ_cons, h a (List.mem_cons_self a l),
      ih fun x hx => h x (List.mem_cons_of_mem a hx), add_zero]

/-- Mapping that can only raise the summed value (and never changes the
filter's verdict) can only raise the filtered sum. -/
theorem sumQ_filter_map_ge {f : α → ℚ} {p : α → Bool} {g : α → α} {l : List α}
    (hp : ∀ x ∈ l, p (g x) = p x) (hf : ∀ x ∈ l, f x ≤ f (g x)) :
    sumQ f (l.filter p) ≤ sumQ f ((l.map g).filter p) := by
  induction l with
  | nil => simp
  | cons a l ih =>
    have hrec := ih (fun x hx => hp x (List.mem_cons_of_mem a hx))
      (fun x hx => hf x (List.mem_cons_of_mem a hx))
    have hpa := hp a (List.mem_cons_self a l)
    have hfa := hf a (List.mem_cons_self a l)
    by_cases hc : p a = true
    · simp only [List.map_cons, List.filter_cons, hc, hpa, if_true]
      rw [sumQ_cons, sumQ_cons]
      linarith
    · have hc2 : p a = false := Bool.eq_false_iff.mpr hc
      simp only [List.map_cons, List.filter_cons, hc2, hpa, Bool.false_eq_true, if_false]
      exact hrec

/-- Mapping that can only lower the summed value (and never changes the
filter's verdict or the sign) can only lower the filtered sum; stated for
a map that may also falsify the filter. -/
theorem sumQ_filter_map_le {f : α → ℚ} {p : α → Bool} {g : α → α} {l : List α}
    (hf : ∀ x ∈ l, 0 ≤ f x) (hfg : ∀ x ∈ l, f (g x) = f x)
    (himp : ∀ x ∈ l, p (g x) = true → p x = true) :
    sumQ f ((l.map g).filter p) ≤ sumQ f (l.filter p) := by
  induction l with
  | nil => simp
  | cons a l ih =>
    have hrec := ih (fun x hx => hf x (List.mem_cons_of_mem a hx))
      (fun x hx => hfg x (List.mem_cons_of_mem a hx))
      (fun x hx => himp x (List.mem_cons_of_mem a hx))
    have hfa := hf a (List.mem_cons_self a l)
    have hfga := hfg a (List.mem_cons_self a l)
    by_cases hpg : p (g a) = true
    · have hpa := himp a (List.mem_cons_self a l) hpg
      simp only [List.map_cons, List.filter_cons, hpg, hpa, if_true]
      rw [sumQ_cons, sumQ_cons, hfga]
      linarith
    · have hpg2 : p (g a) = false := Bool.eq_false_iff.mpr hpg
      by_cases hpa : p a = true
      · simp only [List.map_cons, List.filter_cons, hpg2, hpa, Bool.false_eq_true, if_false,
          if_true]
        rw [sumQ_cons]
        linarith
      · have hpa2 : p a = false := Bool.eq_false_iff.mpr hpa
        simp only [List.map_cons, List.filter_cons, hpg2, hpa2, Bool.false_eq_true, if_false]
        exact hrec

/-- Sum of a filtered flatten, task by task. -/
theorem sumQ_filter_flatten (f : α → ℚ) (p : α → Bool) (L : List (List α)) :
    sumQ f (L.flatten.filter p) = (L.map fun l => sumQ f (l.filter p)).sum := by
  induction L with
  | nil => rfl
  | cons l L ih =>
    simp only [List.flatten_cons, List.filter_append, List.map_cons, List.sum_cons]
    rw [sumQ_append, ih]

/-- With pairwise-distinct keys, filtering on one key yields nothing or a
single row. -/
theorem filter_key_nodup {β : Type _} {l : List β} {key : β → ℕ}
    (hnd : (l.map key).Nodup) (i : ℕ) :
    l.filter (fun x => key x = i) = [] ∨
    ∃ x ∈ l, key x = i ∧ l.filter (fun x => key x = i) = [x] := by
  induction l with
  | nil => left; rfl
  | cons a l ih =>
    rw [List.map_cons, List.nodup_cons] at hnd
    by_cases ha : key a = i
    · right
      refine ⟨a, List.mem_cons_self a l, ha, ?_⟩
      have hnil : l.filter (fun x => key x = i) = [] := by
        refine List.filter_eq_nil_iff.mpr fun x hx => ?_
        simp only [decide_eq_true_eq]
        intro hxi
        have hax : key a = key x := by rw [ha, hxi]
        exact hnd.1 (hax ▸ List.mem_map_of_mem key hx)
      simp [List.filter_cons, ha, hnil]
    · rcases ih hnd.2 with hnil | ⟨x, hx, hxi, hfx⟩
      · left; simp [List.filter_cons, ha, hnil]
      · right
        exact ⟨x, List.mem_cons_of_mem a hx, hxi, by simp [List.filter_cons, ha, hfx]⟩

/-- `find?` by key locates exactly the row that `updateFirst` rewrites. -/
theorem updateFirst_of_find {key : α → ℕ} {k : ℕ} (f : α → α) {l : List α} {t : α}
    (hf : l.find? (fun x => key x == k) = some t) :
    ∃ pre post, l = pre ++ t :: post ∧ key t = k ∧
      updateFirst key k f l = pre ++ f t :: post := by
  induction l with
  | nil => cases hf
  | cons x xs ih =>
    by_cases hx : key x = k
    · simp only [List.find?, hx, beq_self_eq_true] at hf
      cases hf
      exact ⟨[], xs, rfl, hx, by simp [updateFirst, hx]⟩
    · have hbx : (key x == k) = false := by simp [hx]
      simp only [List.find?, hbx] at hf
      rcases ih hf with ⟨pre, post, hl, hk, hu⟩
      exact ⟨x :: pre, post, by simp [hl], hk, by simp [updateFirst, hx, hu]⟩

/-! ## Cancellation preserves the invariant -/

theorem release_order_quantity (a : Allocation) (ids : List ℕ) :
    ∀ b ∈ AllocationService.release_order [a] ids, b.quantity = a.quantity ∧
      b.order_item_id = a.order_item_id := by
  intro b hb
  unfold AllocationService.release_order at hb
  by_cases hc : a.order_item_id ∈ ids <;> simp [hc] at hb <;> simp [hb]

theorem inv_cancel (s : FState) (oid : ℕ) (reason : String) (h : Inv s) :
    Inv (OrderService.cancel s oid reason).1 := by
  unfold OrderService.cancel
  split
  · exact h
  rename_i o ho
  split
  · exact h
  split
  · exact h
  rename_i hnc hnd
  set ids := o.items.map FulfillItem.id with hids
  set s2 : FState :=
    { setOrderStatus s oid .CANCELLED with
      allocations := AllocationService.release_order s.allocations ids,
      audit := s.audit ++ [⟨"Order", oid, "CANCELLED:" ++ reason⟩] } with hs2
  show Inv s2
  have hitems : itemsOf s2 = itemsOf s := itemsOf_setOrderStatus s oid .CANCELLED
  have hgprop : ∀ a : Allocation,
      ((if a.order_item_id ∈ ids then { a with status := AllocStatus.RELEASED } else a) :
        Allocation).quantity = a.quantity ∧
      ((if a.order_item_id ∈ ids then { a with status := AllocStatus.RELEASED } else a) :
        Allocation).order_item_id = a.order_item_id := by
    intro a
    by_cases hc : a.order_item_id ∈ ids <;> simp [hc]
  refine ⟨?_, ?_, ?_, ?_, ?_, ?_, ?_, ?_, ?_, ?_⟩
  · rw [hitems]; exact h.itemIdsNodup
  · rw [hitems]; exact h.itemPos
  · intro a ha
    have ha2 : a ∈ s.allocations.map fun b =>
        if b.order_item_id ∈ ids then { b with status := AllocStatus.RELEASED } else b := ha
    rcases List.mem_map.mp ha2 with ⟨b, hb, rfl⟩
    rw [(hgprop b).1]
    exact h.allocNonneg b hb
  · exact h.pickRowNonneg
  · exact h.pickRowCap
  · exact h.pickRowExpNonneg
  · exact h.packRowNonneg
  · intro it hit
    rw [hitems] at hit
    refine le_trans ?_ (h.allocLe it hit)
    unfold activeAllocated
    refine sumQ_filter_map_le h.allocNonneg (fun b hb => (hgprop b).1) ?_
    intro b hb hpb
    simp only [decide_eq_true_eq] at hpb ⊢
    rcases hpb with ⟨hid, hst⟩
    rw [(hgprop b).2] at hid
    refine ⟨hid, ?_⟩
    by_cases hc : b.order_item_id ∈ ids
    · simp [hc] at hst
    · simpa [hc] using hst
  · intro it hit
    rw [hitems] at hit
    have he : expectedQty s2 it.id = expectedQty s it.id := expectedQty_congr rfl it.id
    have ht : totalAllocated s2 it.id = totalAllocated s it.id := by
      unfold totalAllocated
      refine sumQ_filter_map_eq ?_ (fun b hb => (hgprop b).1)
      intro b hb
      simp only [decide_eq_true_eq, (hgprop b).2]
    rw [he, ht]
    exact h.expLe it hit
  · intro it hit
    rw [hitems] at hit
    have hp : packedQty s2 it.id = packedQty s it.id := packedQty_congr rfl it.id
    have hq : pickedQty s2 it.id = pickedQty s it.id := pickedQty_congr rfl it.id
    rw [hp, hq]
    exact h.packLe it hit

/-! ## Order creation preserves the invariant -/

theorem assignIds_id_ge {n : ℕ} {l : List OrderService.ItemInput} :
    ∀ it ∈ OrderService.assignIds n l, n ≤ it.id := by
  induction l generalizing n with
  | nil => intro it hit; cases hit
  | cons ci rest ih =>
    intro it hit
    rcases List.mem_cons.mp hit with rfl | h2
    · exact le_refl n
    · exact le_trans (Nat.le_succ n) (ih it h2)

theorem assignIds_nodup {n : ℕ} {l : List OrderService.ItemInput} :
    ((OrderService.assignIds n l).map FulfillItem.id).Nodup := by
  induction l generalizing n with
  | nil => exact List.nodup_nil
  | cons ci rest ih =>
    rw [OrderService.assignIds, List.map_cons, List.nodup_cons]
    refine ⟨?_, ih⟩
    intro hmem
    rcases List.mem_map.mp hmem with ⟨it, hit, hid⟩
    have := assignIds_id_ge it hit
    simp only at hid
    omega

theorem assignIds_quantity {n : ℕ} {l : List OrderService.ItemInput} :
    ∀ it ∈ OrderService.assignIds n l, ∃ ci ∈ l, it.quantity = ci.quantity.getD 0 := by
  induction l generalizing n with
  | nil => intro it hit; cases hit
  | cons ci rest ih =>
    intro it hit
    rcases List.mem_cons.mp hit with rfl | h2
    · exact ⟨ci, List.mem_cons_self ci rest, rfl⟩
    · rcases ih it h2 with ⟨ci2, hci2, hq⟩
      exact ⟨ci2, List.mem_cons_of_mem ci hci2, hq⟩

theorem mem_allItemIds_alloc {s : FState} {a : Allocation} (ha : a ∈ s.allocations) :
    a.order_item_id ∈ allItemIds s := by
  unfold allItemIds
  simp only [List.mem_append]
  exact Or.inl (Or.inl (Or.inr (List.mem_map_of_mem _ ha)))

theorem mem_allItemIds_pick {s : FState} {p : PickingItem} (hp : p ∈ pickRows s) :
    p.order_item_id ∈ allItemIds s := by
  unfold allItemIds
  simp only [List.mem_append]
  exact Or.inl (Or.inr (List.mem_map_of_mem _ hp))

theorem mem_allItemIds_pack {s : FState} {p : PackageItem} (hp : p ∈ packRows s) :
    p.order_item_id ∈ allItemIds s := by
  unfold allItemIds
  simp only [List.mem_append]
  exact Or.inr (List.mem_map_of_mem _ hp)

theorem mem_allItemIds_item {s : FState} {it : FulfillItem} (hit : it ∈ itemsOf s) :
    it.id ∈ allItemIds s := by
  unfold allItemIds
  simp only [List.mem_append]
  exact Or.inl (Or.inl (Or.inl (List.mem_map_of_mem _ hit)))

theorem allItemIds_lt_next {s : FState} {i : ℕ} (h : i ∈ allItemIds s) :
    i < nextItemId s := by
  unfold nextItemId
  exact Nat.lt_succ_of_le (le_foldr_max h)

theorem itemsOf_append_order {s : FState} {o : Order} {aud : List AuditEntry} :
    itemsOf { s with orders := s.orders ++ [o], audit := aud } = itemsOf s ++ o.items := by
  unfold itemsOf
  simp

theorem inv_create_order (s : FState) (wid : ℕ) (pr : String)
    (inputs : List OrderService.ItemInput) (h : Inv s) :
    Inv (OrderService.create_order s wid pr inputs).1 := by
  unfold OrderService.create_order
  split
  · rename_i hvalid
    set items := OrderService.assignIds (nextItemId s) inputs with hitemsdef
    set o : Order :=
      { id := nextOrderId s, warehouse_id := wid, priority := pr,
        status := .CREATED, items := items,
        total_amount := sumQ (fun it => it.quantity * it.unit_price) items } with ho
    set s2 : FState :=
      { s with orders := s.orders ++ [o],
               audit := s.audit ++ [⟨"Order", o.id, "CREATED"⟩] } with hs2
    show Inv s2
    have hio : itemsOf s2 = itemsOf s ++ items := itemsOf_append_order
    have hfreshlt : ∀ it ∈ items, ∀ j ∈ allItemIds s, j < it.id := by
      intro it hit j hj
      exact Nat.lt_of_lt_of_le (allItemIds_lt_next hj) (assignIds_id_ge it hit)
    have hfresh_alloc : ∀ it ∈ items,
        (s.allocations.filter fun a => a.order_item_id = it.id ∧ a.status = .ACTIVE) = [] := by
      intro it hit
      refine List.filter_eq_nil_iff.mpr fun a ha => ?_
      simp only [decide_eq_true_eq, not_and]
      intro hid
      exact absurd hid (Nat.ne_of_lt (hfreshlt it hit _ (mem_allItemIds_alloc ha)))
    have hfresh_alloc2 : ∀ it ∈ items,
        (s.allocations.filter fun a => a.order_item_id = it.id) = [] := by
      intro it hit
      refine List.filter_eq_nil_iff.mpr fun a ha => ?_
      simp only [decide_eq_true_eq]
      exact Nat.ne_of_lt (hfreshlt it hit _ (mem_allItemIds_alloc ha))
    have hfresh_pick : ∀ it ∈ items,
        ((pickRows s).filter fun p => p.order_item_id = it.id) = [] := by
      intro it hit
      refine List.filter_eq_nil_iff.mpr fun p hp => ?_
      simp only [decide_eq_true_eq]
      exact Nat.ne_of_lt (hfreshlt it hit _ (mem_allItemIds_pick hp))
    have hfresh_pack : ∀ it ∈ items,
        ((packRows s).filter fun p => p.order_item_id = it.id) = [] := by
      intro it hit
      refine List.filter_eq_nil_iff.mpr fun p hp => ?_
      simp only [decide_eq_true_eq]
      exact Nat.ne_of_lt (hfreshlt it hit _ (mem_allItemIds_pack hp))
    have hact : ∀ i, activeAllocated s2 i = activeAllocated s i :=
      fun i => activeAllocated_congr rfl i
    have htot : ∀ i, totalAllocated s2 i = totalAllocated s i :=
      fun i => totalAllocated_congr rfl i
    have hexp : ∀ i, expectedQty s2 i = expectedQty s i :=
      fun i => expectedQty_congr rfl i
    have hpik : ∀ i, pickedQty s2 i = pickedQty s i :=
      fun i => pickedQty_congr rfl i
    have hpak : ∀ i, packedQty s2 i = packedQty s i :=
      fun i => packedQty_congr rfl i
    refine ⟨?_, ?_, ?_, ?_, ?_, ?_, ?_, ?_, ?_, ?_⟩
    · rw [hio, List.map_append]
      refine List.nodup_append.mpr ⟨h.itemIdsNodup, assignIds_nodup, ?_⟩
      intro i hi1 hi2
      rcases List.mem_map.mp hi1 with ⟨it1, hit1, rfl⟩
      rcases List.mem_map.mp hi2 with ⟨it2, hit2, hideq⟩
      have := hfreshlt it2 hit2 it1.id (mem_allItemIds_item hit1)
      omega
    · rw [hio]
      intro it hit
      rcases List.mem_append.mp hit with hold | hnew
      · exact h.itemPos it hold
      · rcases assignIds_quantity it hnew with ⟨ci, hci, hq⟩
        rw [hq]
        exact (hvalid ci hci).2.2.2
    · exact h.allocNonneg
    · exact h.pickRowNonneg
    · exact h.pickRowCap
    · exact h.pickRowExpNonneg
    · exact h.packRowNonneg
    · rw [hio]
      intro it hit
      rcases List.mem_append.mp hit with hold | hnew
      · rw [hact]
        exact h.allocLe it hold
      · rw [hact]
        unfold activeAllocated
        rw [sumQ_filter_eq_zero (hfresh_alloc it hnew)]
        rcases assignIds_quantity it hnew with ⟨ci, hci, hq⟩
        rw [hq]
        exact le_of_lt (hvalid ci hci).2.2.2
    · rw [hio]
      intro it hit
      rcases List.mem_append.mp hit with hold | hnew
      · rw [hexp, htot]
        exact h.expLe it hold
      · rw [hexp, htot]
        unfold expectedQty totalAllocated
        rw [sumQ_filter_eq_zero (hfresh_pick it hnew),
          sumQ_filter_eq_zero (hfresh_alloc2 it hnew)]
    · rw [hio]
      intro it hit
      rcases List.mem_append.mp hit with hold | hnew
      · rw [hpak, hpik]
        exact h.packLe it hold
      · rw [hpak, hpik]
        unfold packedQty pickedQty
        rw [sumQ_filter_eq_zero (hfresh_pack it hnew),
          sumQ_filter_eq_zero (hfresh_pick it hnew)]
  · exact h

/-! ## Picking updates preserve the invariant -/

theorem bump_mem {items : List PickingItem} {i : ℕ} {q : ℚ} {p : PickingItem}
    (hp : p ∈ PickingService.bump items i q) :
    ∃ p0 ∈ items, p = (if p0.order_item_id = i
      then { p0 with quantity_picked := p0.quantity_picked + q } else p0) := by
  unfold PickingService.bump at hp
  rcases List.mem_map.mp hp with ⟨p0, hp0, hval⟩
  exact ⟨p0, hp0, hval.symm⟩

theorem applyUpdates_row_facts {items items2 : List PickingItem} {us : List (ℕ × ℚ)}
    (hup : PickingService.applyUpdates items us = some items2)
    (h0 : ∀ p ∈ items, 0 ≤ p.quantity_picked)
    (hc : ∀ p ∈ items, p.quantity_picked ≤ p.quantity_expected)
    (he : ∀ p ∈ items, 0 ≤ p.quantity_expected) :
    (∀ p ∈ items2, 0 ≤ p.quantity_picked) ∧
    (∀ p ∈ items2, p.quantity_picked ≤ p.quantity_expected) ∧
    (∀ p ∈ items2, 0 ≤ p.quantity_expected) := by
  induction us generalizing items with
  | nil =>
    unfold PickingService.applyUpdates at hup
    cases hup
    exact ⟨h0, hc, he⟩
  | cons u rest ih =>
    obtain ⟨i, q⟩ := u
    unfold PickingService.applyUpdates at hup
    split at hup
    · rename_i hg
      obtain ⟨hq0, hcap⟩ := hg
      refine ih hup ?_ ?_ ?_
      · intro p hp
        rcases bump_mem hp with ⟨p0, hp0, rfl⟩
        by_cases hid : p0.order_item_id = i
        · simp only [hid, if_true]
          have := h0 p0 hp0
          linarith
        · simpa [hid] using h0 p0 hp0
      · intro p hp
        rcases bump_mem hp with ⟨p0, hp0, rfl⟩
        by_cases hid : p0.order_item_id = i
        · simp only [hid, if_true]
          exact hcap p0 hp0 hid
        · simpa [hid] using hc p0 hp0
      · intro p hp
        rcases bump_mem hp with ⟨p0, hp0, rfl⟩
        by_cases hid : p0.order_item_id = i <;> simpa [hid] using he p0 hp0
    · cases hup

theorem applyUpdates_expected {items items2 : List PickingItem} {us : List (ℕ × ℚ)}
    (hup : PickingService.applyUpdates items us = some items2) (i : ℕ) :
    sumQ PickingItem.quantity_expected (items2.filter fun p => p.order_item_id = i)
      = sumQ PickingItem.quantity_expected (items.filter fun p => p.order_item_id = i) := by
  induction us generalizing items with
  | nil =>
    unfold PickingService.applyUpdates at hup
    cases hup; rfl
  | cons u rest ih =>
    obtain ⟨j, q⟩ := u
    unfold PickingService.applyUpdates at hup
    split at hup
    · rw [ih hup]
      unfold PickingService.bump
      refine sumQ_filter_map_eq ?_ ?_ <;> intro p0 hp0 <;>
        by_cases hid : p0.order_item_id = j <;> simp [hid]
    · cases hup

theorem applyUpdates_picked_mono {items items2 : List PickingItem} {us : List (ℕ × ℚ)}
    (hup : PickingService.applyUpdates items us = some items2) (i : ℕ) :
    sumQ PickingItem.quantity_picked (items.filter fun p => p.order_item_id = i)
      ≤ sumQ PickingItem.quantity_picked (items2.filter fun p => p.order_item_id = i) := by
  induction us generalizing items with
  | nil =>
    unfold PickingService.applyUpdates at hup
    cases hup; exact le_refl _
  | cons u rest ih =>
    obtain ⟨j, q⟩ := u
    unfold PickingService.applyUpdates at hup
    split at hup
    · rename_i hg
      obtain ⟨hq0, hcap⟩ := hg
      refine le_trans ?_ (ih hup)
      unfold PickingService.bump
      refine sumQ_filter_map_ge ?_ ?_ <;> intro p0 hp0 <;>
        by_cases hid : p0.order_item_id = j <;> simp [hid]
      linarith
    · cases hup

theorem inv_update_picked (s : FState) (tid : ℕ) (updates : List (ℕ × ℚ)) (h : Inv s) :
    Inv (PickingService.update_picked s tid updates).1 := by
  unfold PickingService.update_picked
  split
  · exact h
  rename_i t ht
  split
  · exact h
  rename_i items2 hup
  have hfind : s.pickingTasks.find? (fun x => x.id == tid) = some t := ht
  obtain ⟨pre, post, hl, hk, hu⟩ :=
    updateFirst_of_find (fun t0 => { t0 with items := items2 }) hfind
  have hrows2 : pickRows (PickingService.setTask s tid fun t0 => { t0 with items := items2 })
      = (pre.map PickingTask.items).flatten ++ (items2 ++ (post.map PickingTask.items).flatten) := by
    show ((updateFirst PickingTask.id tid _ s.pickingTasks).map PickingTask.items).flatten = _
    rw [hu]
    simp
  have hrows : pickRows s
      = (pre.map PickingTask.items).flatten ++ (t.items ++ (post.map PickingTask.items).flatten) := by
    show ((s.pickingTasks.map PickingTask.items).flatten) = _
    rw [hl]
    simp
  have hsub : ∀ p ∈ t.items, p ∈ pickRows s := by
    intro p hp
    rw [hrows]
    exact List.mem_append_right _ (List.mem_append_left _ hp)
  have hfacts := applyUpdates_row_facts hup
    (fun p hp => h.pickRowNonneg p (hsub p hp))
    (fun p hp => h.pickRowCap p (hsub p hp))
    (fun p hp => h.pickRowExpNonneg p (hsub p hp))
  refine ⟨?_, ?_, ?_, ?_, ?_, ?_, ?_, ?_, ?_, ?_⟩
  · exact h.itemIdsNodup
  · exact h.itemPos
  · exact h.allocNonneg
  · intro p hp
    rw [hrows2] at hp
    rcases List.mem_append.mp hp with h1 | h23
    · exact h.pickRowNonneg p (by rw [hrows]; exact List.mem_append_left _ h1)
    rcases List.mem_append.mp h23 with h2 | h3
    · exact hfacts.1 p h2
    · exact h.pickRowNonneg p
        (by rw [hrows]; exact List.mem_append_right _ (List.mem_append_right _ h3))
  · intro p hp
    rw [hrows2] at hp
    rcases List.mem_append.mp hp with h1 | h23
    · exact h.pickRowCap p (by rw [hrows]; exact List.mem_append_left _ h1)
    rcases List.mem_append.mp h23 with h2 | h3
    · exact hfacts.2.1 p h2
    · exact h.pickRowCap p
        (by rw [hrows]; exact List.mem_append_right _ (List.mem_append_right _ h3))
  · intro p hp
    rw [hrows2] at hp
    rcases List.mem_append.mp hp with h1 | h23
    · exact h.pickRowExpNonneg p (by rw [hrows]; exact List.mem_append_left _ h1)
    rcases List.mem_append.mp h23 with h2 | h3
    · exact hfacts.2.2 p h2
    · exact h.pickRowExpNonneg p
        (by rw [hrows]; exact List.mem_append_right _ (List.mem_append_right _ h3))
  · exact h.packRowNonneg
  · intro it hit
    rw [activeAllocated_congr rfl]
    exact h.allocLe it hit
  · intro it hit
    have hexp2 : expectedQty
        (PickingService.setTask s tid fun t0 => { t0 with items := items2 }) it.id
        = expectedQty s it.id := by
      unfold expectedQty
      rw [hrows2, hrows]
      simp only [List.filter_append, sumQ_append]
      rw [applyUpdates_expected hup it.id]
    rw [hexp2, totalAllocated_congr rfl]
    exact h.expLe it hit
  · intro it hit
    have hpick2 : pickedQty s it.id ≤ pickedQty
        (PickingService.setTask s tid fun t0 => { t0 with items := items2 }) it.id := by
      unfold pickedQty
      rw [hrows2, hrows]
      simp only [List.filter_append, sumQ_append]
      have := applyUpdates_picked_mono hup it.id
      linarith
    rw [packedQty_congr rfl]
    exact le_trans (h.packLe it hit) hpick2

/-! ## Picking-task generation preserves the invariant -/

theorem order_items_sublist {s : FState} {o : Order} (ho : o ∈ s.orders) :
    o.items.Sublist (itemsOf s) := by
  unfold itemsOf
  exact List.sublist_flatten_of_mem (List.mem_map_of_mem _ ho)

theorem activeAllocated_nonneg (s : FState) (h : Inv s) (i : ℕ) :
    0 ≤ activeAllocated s i := by
  unfold activeAllocated
  exact sumQ_nonneg fun a ha => h.allocNonneg a (List.mem_of_mem_filter ha)

theorem activeAllocated_le_totalAllocated (s : FState) (h : Inv s) (i : ℕ) :
    activeAllocated s i ≤ totalAllocated s i := by
  unfold activeAllocated totalAllocated
  refine sumQ_filter_le_of_imp h.allocNonneg ?_
  intro a ha hp
  simp only [decide_eq_true_eq] at hp ⊢
  exact hp.1

theorem inv_generate_picking (s : FState) (oid : ℕ) (h : Inv s) :
    Inv (OrderService.generate_picking s oid).1 := by
  unfold OrderService.generate_picking
  split
  · exact h
  rename_i o ho
  split
  case isFalse => exact h
  rename_i hcan
  split
  case isFalse => exact h
  rename_i hguard
  set s2 : FState :=
    { setOrderStatus s oid .PICKING with
      pickingTasks := s.pickingTasks ++ [PickingService.mkTask s o],
      audit := s.audit ++ [⟨"Order", oid, "PICKING"⟩] } with hs2
  show Inv s2
  have homem : o ∈ s.orders := List.mem_of_find?_eq_some ho
  have hnodupo : (o.items.map FulfillItem.id).Nodup :=
    h.itemIdsNodup.sublist ((order_items_sublist homem).map _)
  have hitems : itemsOf s2 = itemsOf s := itemsOf_setOrderStatus s oid .PICKING
  have hrows : pickRows s2 = pickRows s ++ (PickingService.mkTask s o).items := by
    show ((s.pickingTasks ++ [PickingService.mkTask s o]).map PickingTask.items).flatten = _
    simp [pickRows]
  have hGmem : ∀ p ∈ (PickingService.mkTask s o).items,
      ∃ it ∈ o.items, p = PickingItem.mk it.id (activeAllocated s it.id) 0 := by
    intro p hp
    rcases List.mem_map.mp hp with ⟨it, hit, hval⟩
    exact ⟨it, hit, hval.symm⟩
  have hnewExp : ∀ i, sumQ PickingItem.quantity_expected
      (((PickingService.mkTask s o).items).filter fun p => p.order_item_id = i)
      = sumQ (fun it => activeAllocated s it.id)
          (o.items.filter fun it => it.id = i) := by
    intro i
    show sumQ PickingItem.quantity_expected
      ((o.items.map fun it =>
        PickingItem.mk it.id (activeAllocated s it.id) 0).filter
          fun p => p.order_item_id = i) = _
    rw [List.filter_map]
    unfold sumQ
    rw [List.map_map]
    rfl
  have hnewPick : ∀ i, sumQ PickingItem.quantity_picked
      (((PickingService.mkTask s o).items).filter fun p => p.order_item_id = i) = 0 := by
    intro i
    refine sumQ_eq_zero fun p hp => ?_
    rcases hGmem p (List.mem_of_mem_filter hp) with ⟨it, hit, rfl⟩
    rfl
  refine ⟨?_, ?_, ?_, ?_, ?_, ?_, ?_, ?_, ?_, ?_⟩
  · rw [hitems]; exact h.itemIdsNodup
  · rw [hitems]; exact h.itemPos
  · exact h.allocNonneg
  · intro p hp
    rw [hrows] at hp
    rcases List.mem_append.mp hp with hold | hnew
    · exact h.pickRowNonneg p hold
    · rcases hGmem p hnew with ⟨it, hit, rfl⟩
      exact le_refl 0
  · intro p hp
    rw [hrows] at hp
    rcases List.mem_append.mp hp with hold | hnew
    · exact h.pickRowCap p hold
    · rcases hGmem p hnew with ⟨it, hit, rfl⟩
      exact activeAllocated_nonneg s h it.id
  · intro p hp
    rw [hrows] at hp
    rcases List.mem_append.mp hp with hold | hnew
    · exact h.pickRowExpNonneg p hold
    · rcases hGmem p hnew with ⟨it, hit, rfl⟩
      exact activeAllocated_nonneg s h it.id
  · exact h.packRowNonneg
  · intro it hit
    rw [hitems] at hit
    rw [activeAllocated_congr rfl]
    exact h.allocLe it hit
  · intro it hit
    rw [hitems] at hit
    have hexp2 : expectedQty s2 it.id
        = expectedQty s it.id + sumQ (fun x => activeAllocated s x.id)
            (o.items.filter fun x => x.id = it.id) := by
      unfold expectedQty
      rw [hrows, List.filter_append, sumQ_append, hnewExp it.id]
    rw [hexp2, totalAllocated_congr rfl]
    rcases filter_key_nodup hnodupo it.id with hnil | ⟨x, hx, hxid, hfil⟩
    · rw [hnil, sumQ_nil, add_zero]
      exact h.expLe it hit
    · rw [hfil, sumQ_cons, sumQ_nil, add_zero, hxid]
      have hz : expectedQty s it.id = 0 := by
        have hg2 := hguard x hx
        rw [hxid] at hg2
        unfold expectedQty
        exact sumQ_filter_eq_zero hg2
      rw [hz, zero_add]
      exact activeAllocated_le_totalAllocated s h it.id
  · intro it hit
    rw [hitems] at hit
    have hpick2 : pickedQty s2 it.id = pickedQty s it.id := by
      unfold pickedQty
      rw [hrows, List.filter_append, sumQ_append, hnewPick it.id, add_zero]
    rw [hpick2, packedQty_congr rfl]
    exact h.packLe it hit

/-! ## Adding an item to a package preserves the invariant -/

theorem inv_add_item (s : FState) (tid pkgid itemid : ℕ) (q : ℚ) (h : Inv s) :
    Inv (PackingService.add_item s tid pkgid itemid q).1 := by
  unfold PackingService.add_item
  split
  · exact h
  rename_i t ht
  split
  · exact h
  rename_i pkg hpkg
  split
  case isFalse => exact h
  rename_i hopen
  split
  case isFalse => exact h
  rename_i hq
  split
  case isFalse => exact h
  rename_i hw
  set row : PackageItem := { order_item_id := itemid, quantity := q } with hrow
  set g : Package → Package := fun p => { p with items := p.items ++ [row] } with hgdef
  set f : PackingTask → PackingTask :=
    fun t0 => { t0 with packages := updateFirst Package.id pkgid g t0.packages } with hfdef
  show Inv (PackingService.setTask s tid f)
  have hfind : s.packingTasks.find? (fun x => x.id == tid) = some t := ht
  obtain ⟨pre, post, hl, hk, hu⟩ := updateFirst_of_find f hfind
  obtain ⟨pre2, post2, hl2, hk2, hu2⟩ := updateFirst_of_find g hpkg
  have hmid2 : packTaskRows (f t)
      = (pre2.map Package.items).flatten ++
        ((pkg.items ++ [row]) ++ (post2.map Package.items).flatten) := by
    show ((updateFirst Package.id pkgid g t.packages).map Package.items).flatten = _
    rw [hu2]
    simp [hgdef]
  have hmid : packTaskRows t
      = (pre2.map Package.items).flatten ++
        (pkg.items ++ (post2.map Package.items).flatten) := by
    show ((t.packages).map Package.items).flatten = _
    rw [hl2]
    simp
  have hrows2 : packRows (PackingService.setTask s tid f)
      = (pre.map packTaskRows).flatten ++
        (packTaskRows (f t) ++ (post.map packTaskRows).flatten) := by
    rw [packRows_eq_flatten]
    show ((updateFirst PackingTask.id tid f s.packingTasks).map packTaskRows).flatten = _
    rw [hu]
    simp
  have hrows : packRows s
      = (pre.map packTaskRows).flatten ++
        (packTaskRows t ++ (post.map packTaskRows).flatten) := by
    rw [packRows_eq_flatten, hl]
    simp
  have hpacked : ∀ i, packedQty (PackingService.setTask s tid f) i = packedQty s i
      + sumQ PackageItem.quantity ([row].filter fun p => p.order_item_id = i) := by
    intro i
    unfold packedQty
    rw [hrows2, hmid2, hrows, hmid]
    simp only [List.filter_append, sumQ_append]
    ring
  have hmem : ∀ p ∈ packRows (PackingService.setTask s tid f),
      p ∈ packRows s ∨ p = row := by
    intro p hp
    rw [hrows2, hmid2] at hp
    rw [hrows, hmid]
    rcases List.mem_append.mp hp with h1 | h2
    · exact Or.inl (List.mem_append_left _ h1)
    rcases List.mem_append.mp h2 with h3 | h4
    · rcases List.mem_append.mp h3 with h5 | h6
      · exact Or.inl (List.mem_append_right _
          (List.mem_append_left _ (List.mem_append_left _ h5)))
      rcases List.mem_append.mp h6 with h7 | h8
      · rcases List.mem_append.mp h7 with h9 | h10
        · exact Or.inl (List.mem_append_right _ (List.mem_append_left _
            (List.mem_append_right _ (List.mem_append_left _ h9))))
        · exact Or.inr (List.mem_singleton.mp h10)
      · exact Or.inl (List.mem_append_right _ (List.mem_append_left _
          (List.mem_append_right _ (List.mem_append_right _ h8))))
    · exact Or.inl (List.mem_append_right _ (List.mem_append_right _ h4))
  refine ⟨?_, ?_, ?_, ?_, ?_, ?_, ?_, ?_, ?_, ?_⟩
  · exact h.itemIdsNodup
  · exact h.itemPos
  · exact h.allocNonneg
  · exact h.pickRowNonneg
  · exact h.pickRowCap
  · exact h.pickRowExpNonneg
  · intro p hp
    rcases hmem p hp with hold | rfl
    · exact h.packRowNonneg p hold
    · exact le_of_lt hq.1
  · intro it hit
    rw [activeAllocated_congr rfl]
    exact h.allocLe it hit
  · intro it hit
    rw [expectedQty_congr rfl, totalAllocated_congr rfl]
    exact h.expLe it hit
  · intro it hit
    rw [hpacked it.id, pickedQty_congr rfl]
    by_cases hii : itemid = it.id
    · have hfil : [row].filter (fun p => p.order_item_id = it.id) = [row] := by
        simp [hrow, hii]
      rw [hfil, sumQ_cons, sumQ_nil, add_zero]
      have hq2 := hq.2
      rw [hii] at hq2
      have := h.packLe it hit
      show packedQty s it.id + row.quantity ≤ pickedQty s it.id
      rw [hrow]
      linarith
    · have hfil : [row].filter (fun p => p.order_item_id = it.id) = [] := by
        simp [hrow, hii]
      rw [hfil, sumQ_nil, add_zero]
      exact h.packLe it hit

/-! ## Allocation: the greedy split reserves exactly the ordered quantity -/

theorem greedyReserve_sum {q : ℚ} {locs : List AllocationService.LocationStock}
    (hq : 0 < q) (hle : q ≤ sumQ AllocationService.LocationStock.available locs) :
    sumQ Prod.snd (AllocationService.greedyReserve q locs) = q := by
  induction locs generalizing q with
  | nil =>
    rw [sumQ_nil] at hle
    linarith
  | cons l rest ih =>
    unfold AllocationService.greedyReserve
    rw [sumQ_cons] at hle
    by_cases hc : q ≤ l.available
    · simp only [hc, if_true]
      rw [sumQ_cons, sumQ_nil]
      simp
    · simp only [hc, if_false]
      rw [sumQ_cons]
      have hrec : sumQ Prod.snd (AllocationService.greedyReserve (q - l.available) rest)
          = q - l.available := ih (by linarith) (by linarith)
      rw [hrec]
      simp

theorem greedyReserve_nonneg {q : ℚ} {locs : List AllocationService.LocationStock}
    (hq : 0 < q) (hlocs : ∀ l ∈ locs, 0 ≤ l.available) :
    ∀ r ∈ AllocationService.greedyReserve q locs, 0 ≤ r.2 := by
  induction locs generalizing q with
  | nil => intro r hr; cases hr
  | cons l rest ih =>
    intro r hr
    unfold AllocationService.greedyReserve at hr
    by_cases hc : q ≤ l.available
    · simp only [hc, if_true] at hr
      rw [List.mem_singleton] at hr
      subst hr
      exact le_of_lt hq
    · simp only [hc, if_false] at hr
      rcases List.mem_cons.mp hr with rfl | h2
      · exact hlocs l (List.mem_cons_self l rest)
      · have hl0 : 0 ≤ l.available := hlocs l (List.mem_cons_self l rest)
        exact ih (by linarith) (fun x hx => hlocs x (List.mem_cons_of_mem l hx)) r h2

theorem splitReservations_sum {q : ℚ} {locs : List AllocationService.LocationStock}
    (hq : 0 < q) (hle : q ≤ sumQ AllocationService.LocationStock.available locs) :
    sumQ Prod.snd (AllocationService.splitReservations q locs) = q := by
  unfold AllocationService.splitReservations
  split
  · rw [sumQ_cons, sumQ_nil]; simp
  · have hperm := List.mergeSort_perm locs (fun a b => b.available ≤ a.available)
    refine greedyReserve_sum hq ?_
    unfold sumQ
    rw [(hperm.map _).sum_eq]
    exact hle

theorem splitReservations_nonneg {q : ℚ} {locs : List AllocationService.LocationStock}
    (hq : 0 < q) (hlocs : ∀ l ∈ locs, 0 ≤ l.available) :
    ∀ r ∈ AllocationService.splitReservations q locs, 0 ≤ r.2 := by
  unfold AllocationService.splitReservations
  split
  · intro r hr
    rw [List.mem_singleton] at hr
    subst hr
    exact le_of_lt hq
  · have hperm := List.mergeSort_perm locs (fun a b => b.available ≤ a.available)
    exact greedyReserve_nonneg hq fun l hl => hlocs l (hperm.subset hl)

theorem reservationRows_mem {avail : AllocationService.AvailFn} {items : List FulfillItem}
    {a : Allocation} (ha : a ∈ AllocationService.reservationRows avail items) :
    ∃ it ∈ items, ∃ r ∈ AllocationService.splitReservations it.quantity (avail it.sku),
      a = { order_item_id := it.id, location := r.1, quantity := r.2, status := .ACTIVE } := by
  unfold AllocationService.reservationRows at ha
  rcases List.mem_flatMap.mp ha with ⟨it, hit, hmem⟩
  rcases List.mem_map.mp hmem with ⟨r, hr, hval⟩
  exact ⟨it, hit, r, hr, hval.symm⟩

/-- Sum over the rows with one key, as a sum of guarded contributions. -/
theorem sumQ_filter_eq_sum_ite {F : α → ℚ} {key : α → ℕ} {i : ℕ} (l : List α) :
    sumQ F (l.filter fun x => key x = i)
      = (l.map fun x => if key x = i then F x else 0).sum := by
  induction l with
  | nil => rfl
  | cons a l ih =>
    by_cases hc : key a = i
    · rw [List.filter_cons, if_pos (by simp [hc]), sumQ_cons, ih, List.map_cons,
        List.sum_cons, if_pos hc]
    · rw [List.filter_cons, if_neg (by simp [hc]), ih, List.map_cons,
        List.sum_cons, if_neg hc, zero_add]

/-- The ACTIVE rows created for a single item, filtered by an item id,
sum to that item's split total when the id matches and to zero else. -/
theorem rows_for_item_sum (avail : AllocationService.AvailFn) (it : FulfillItem) (i : ℕ) :
    sumQ Allocation.quantity
      (((AllocationService.splitReservations it.quantity (avail it.sku)).map
        fun r => Allocation.mk it.id r.1 r.2 .ACTIVE).filter
          fun a => a.order_item_id = i ∧ a.status = .ACTIVE)
    = if it.id = i
      then sumQ Prod.snd (AllocationService.splitReservations it.quantity (avail it.sku))
      else 0 := by
  by_cases hii : it.id = i
  · rw [if_pos hii]
    rw [List.filter_eq_self.mpr ?hall]
    case hall =>
      intro a ha
      rcases List.mem_map.mp ha with ⟨r, hr, rfl⟩
      simp [hii]
    unfold sumQ
    rw [List.map_map]
    rfl
  · rw [if_neg hii]
    rw [List.filter_eq_nil_iff.mpr ?hnone]
    case hnone =>
      intro a ha
      rcases List.mem_map.mp ha with ⟨r, hr, rfl⟩
      simp [hii]
    rfl

theorem reservationRows_active_sum {avail : AllocationService.AvailFn}
    {items : List FulfillItem} (i : ℕ) :
    sumQ Allocation.quantity ((AllocationService.reservationRows avail items).filter
        fun a => a.order_item_id = i ∧ a.status = .ACTIVE)
      = (items.map fun it => if it.id = i
          then sumQ Prod.snd (AllocationService.splitReservations it.quantity (avail it.sku))
          else 0).sum := by
  unfold AllocationService.reservationRows
  rw [List.flatMap_def, sumQ_filter_flatten, List.map_map]
  refine congrArg List.sum (List.map_congr_left fun it hit => ?_)
  show sumQ Allocation.quantity
      (((AllocationService.splitReservations it.quantity (avail it.sku)).map
        fun r => Allocation.mk it.id r.1 r.2 .ACTIVE).filter
          fun a => a.order_item_id = i ∧ a.status = .ACTIVE) = _
  rw [rows_for_item_sum]

theorem inv_allocate (s : FState) (avail : AllocationService.AvailFn) (oid : ℕ)
    (hav : AvailOk avail) (h : Inv s) : Inv (OrderService.allocate s avail oid).1 := by
  unfold OrderService.allocate
  split
  · exact h
  rename_i o ho
  split
  case isFalse => exact h
  rename_i hcan
  split
  case isFalse => exact h
  rename_i hempty
  split
  · exact h
  rename_i rows hok
  have hshort : AllocationService.shortSkus avail o.items = [] ∧
      rows = AllocationService.reservationRows avail o.items := by
    unfold AllocationService.allocate_order at hok
    split at hok
    · rename_i hnil
      cases hok
      exact ⟨hnil, rfl⟩
    · cases hok
  obtain ⟨hnil, hrowsdef⟩ := hshort
  subst hrowsdef
  set rows := AllocationService.reservationRows avail o.items with hrows
  set s2 : FState :=
    { setOrderStatus s oid .ALLOCATED with
      allocations := s.allocations ++ rows,
      audit := s.audit ++ [⟨"Order", oid, "ALLOCATED"⟩] } with hs2
  show Inv s2
  have homem : o ∈ s.orders := List.mem_of_find?_eq_some ho
  have hsubo : ∀ it ∈ o.items, it ∈ itemsOf s :=
    fun it hit => (order_items_sublist homem).subset hit
  have hnodupo : (o.items.map FulfillItem.id).Nodup :=
    h.itemIdsNodup.sublist ((order_items_sublist homem).map _)
  have hpos : ∀ it ∈ o.items, 0 < it.quantity := fun it hit => h.itemPos it (hsubo it hit)
  have hqle : ∀ it ∈ o.items,
      it.quantity ≤ sumQ AllocationService.LocationStock.available (avail it.sku) := by
    intro it hit
    have hfil : (o.items.filter fun x =>
        AllocationService.itemAvailable avail x.sku < x.quantity) = [] :=
      List.map_eq_nil_iff.mp hnil
    have := List.filter_eq_nil_iff.mp hfil it hit
    simp only [decide_eq_true_eq, not_lt] at this
    exact this
  have hsplit : ∀ it ∈ o.items,
      sumQ Prod.snd (AllocationService.splitReservations it.quantity (avail it.sku))
        = it.quantity :=
    fun it hit => splitReservations_sum (hpos it hit) (hqle it hit)
  have hrowfacts : ∀ a ∈ rows, 0 ≤ a.quantity ∧ a.status = .ACTIVE ∧
      ∃ it ∈ o.items, a.order_item_id = it.id := by
    intro a ha
    rcases reservationRows_mem ha with ⟨it, hit, r, hr, rfl⟩
    exact ⟨splitReservations_nonneg (hpos it hit) (fun l hl => hav it.sku l hl) r hr,
      rfl, it, hit, rfl⟩
  have hitems : itemsOf s2 = itemsOf s := itemsOf_setOrderStatus s oid .ALLOCATED
  have hactive2 : ∀ i, activeAllocated s2 i = activeAllocated s i
      + sumQ FulfillItem.quantity (o.items.filter fun x => x.id = i) := by
    intro i
    unfold activeAllocated
    show sumQ Allocation.quantity ((s.allocations ++ rows).filter _) = _
    rw [List.filter_append, sumQ_append, reservationRows_active_sum i,
      sumQ_filter_eq_sum_ite]
    congr 1
    refine congrArg List.sum (List.map_congr_left fun it hit => ?_)
    by_cases hii : it.id = i
    · rw [if_pos hii, if_pos hii, hsplit it hit]
    · rw [if_neg hii, if_neg hii]
  have htotal2 : ∀ i, totalAllocated s i ≤ totalAllocated s2 i := by
    intro i
    unfold totalAllocated
    show sumQ Allocation.quantity (s.allocations.filter _)
      ≤ sumQ Allocation.quantity ((s.allocations ++ rows).filter _)
    rw [List.filter_append, sumQ_append]
    have : 0 ≤ sumQ Allocation.quantity (rows.filter fun a => a.order_item_id = i) :=
      sumQ_nonneg fun a ha => (hrowfacts a (List.mem_of_mem_filter ha)).1
    linarith
  refine ⟨?_, ?_, ?_, ?_, ?_, ?_, ?_, ?_, ?_, ?_⟩
  · rw [hitems]; exact h.itemIdsNodup
  · rw [hitems]; exact h.itemPos
  · intro a ha
    rcases List.mem_append.mp ha with hold | hnew
    · exact h.allocNonneg a hold
    · exact (hrowfacts a hnew).1
  · exact h.pickRowNonneg
  · exact h.pickRowCap
  · exact h.pickRowExpNonneg
  · exact h.packRowNonneg
  · intro it hit
    rw [hitems] at hit
    rw [hactive2 it.id]
    rcases filter_key_nodup hnodupo it.id with hfnil | ⟨x, hx, hxid, hfone⟩
    · rw [hfnil, sumQ_nil, add_zero]
      exact h.allocLe it hit
    · rw [hfone, sumQ_cons, sumQ_nil, add_zero]
      have hx_it : x = it :=
        List.inj_on_of_nodup_map h.itemIdsNodup (hsubo x hx) hit hxid
      have hzero : activeAllocated s it.id = 0 := by
        unfold activeAllocated
        refine sumQ_filter_eq_zero (List.filter_eq_nil_iff.mpr fun a ha => ?_)
        have hnone := hempty x hx
        have := List.filter_eq_nil_iff.mp hnone a ha
        simp only [decide_eq_true_eq] at this ⊢
        rw [hxid] at this
        exact fun hcon => this hcon.1
      rw [hzero, zero_add, hx_it]
  · intro it hit
    rw [hitems] at hit
    have hexp : expectedQty s2 it.id = expectedQty s it.id := expectedQty_congr rfl it.id
    rw [hexp]
    exact le_trans (h.expLe it hit) (htotal2 it.id)
  · intro it hit
    rw [hitems] at hit
    rw [packedQty_congr rfl, pickedQty_congr rfl]
    exact h.packLe it hit

/-! ## Every operation preserves the invariant; the invariant holds on
every reachable store -/

theorem inv_initState : Inv initState := by
  refine ⟨?_, ?_, ?_, ?_, ?_, ?_, ?_, ?_, ?_, ?_⟩ <;>
    simp [initState, itemsOf, pickRows, packRows]

theorem inv_step {s s' : FState} (hstep : Step s s') (h : Inv s) : Inv s' := by
  cases hstep with
  | create_order wid pr inputs => exact inv_create_order s wid pr inputs h
  | approve oid => exact inv_approve s oid h
  | allocate avail oid hav => exact inv_allocate s avail oid hav h
  | cancel oid reason => exact inv_cancel s oid reason h
  | generate_picking oid => exact inv_generate_picking s oid h
  | assign_picker tid pid => exact inv_assign_picker s tid pid h
  | update_picked tid updates => exact inv_update_picked s tid updates h
  | complete_picking tid => exact inv_complete_picking s tid h
  | create_packing oid => exact inv_create_packing s oid h
  | create_package tid len wid hei ew mw => exact inv_create_package s tid len wid hei ew mw h
  | add_item tid pkgid itemid q => exact inv_add_item s tid pkgid itemid q h
  | finalize_package tid pkgid => exact inv_finalize_package s tid pkgid h
  | complete_packing tid => exact inv_complete_packing s tid h
  | create_shipment oid carrier pkgids => exact inv_create_shipment s oid carrier pkgids h
  | assign_tracking shid tn => exact inv_assign_tracking s shid tn h
  | update_shipment_status shid st => exact inv_update_shipment_status s shid st h

theorem inv_reachable {s : FState} (h : Reachable s) : Inv s := by
  induction h with
  | refl => exact inv_initState
  | tail _ hstep ih => exact inv_step hstep ih

/-! ## The claims -/

/-- C4: the order-status transition table (a total pure function over the
fixed state set, by construction) lets every non-terminal state reach
CANCELLED in exactly one step; DELIVERED and CANCELLED admit no outgoing
transitions; and every legal transition strictly increases the workflow
rank, so the table is acyclic (CANCELLED, of maximal rank and with no
outgoing edge, is the one sink shared by all cancellation edges). -/
theorem C4_workflow_table :
    (∀ st : OrderStatus, st.isTerminal = false → can_transition st .CANCELLED = true) ∧
    (∀ st : OrderStatus, can_transition .DELIVERED st = false) ∧
    (∀ st : OrderStatus, can_transition .CANCELLED st = false) ∧
    (∀ a b : OrderStatus, can_transition a b = true → a.rank < b.rank) := by
  refine ⟨?_, ?_, ?_, ?_⟩ <;> decide

/-- Witness for C4 at concrete statuses: PICKING is non-terminal and may
cancel in one step, and the CREATED→APPROVED edge raises the rank. -/
theorem C4_workflow_table_witness :
    can_transition .PICKING .CANCELLED = true ∧
    OrderStatus.rank .CREATED < OrderStatus.rank .APPROVED :=
  ⟨C4_workflow_table.1 .PICKING (by decide),
   C4_workflow_table.2.2.2 .CREATED .APPROVED (by decide)⟩

/-- C9: with no user loaded both helpers answer `false` for every
argument; with a user loaded, `hasRole` is `true` exactly when some role's
name matches, and `hasPermission` exactly when some role carries a
permission with the matching codename (`AuthProvider.jsx`). -/
theorem C9_roles_permissions (u : Option User) (r p : String) :
    (hasRole none r = false) ∧
    (hasPermission none p = false) ∧
    (hasRole u r = true ↔ ∃ user, u = some user ∧
      ∃ roles, user.roles = some roles ∧ ∃ role ∈ roles, role.name = r) ∧
    (hasPermission u p = true ↔ ∃ user, u = some user ∧
      ∃ role ∈ user.roles.getD [], ∃ perms, role.permissions = some perms ∧
        ∃ perm ∈ perms, perm.codename = p) := by
  refine ⟨rfl, rfl, ?_, ?_⟩
  · cases u with
    | none => simp [hasRole]
    | some user =>
      cases hr : user.roles with
      | none => simp [hasRole, hr]
      | some roles => simp [hasRole, hr, List.any_eq_true]
  · cases u with
    | none => simp [hasPermission]
    | some user =>
      constructor
      · intro htrue
        rcases List.any_eq_true.mp htrue with ⟨role, hrole, hin⟩
        cases hp : role.permissions with
        | none => rw [hp] at hin; cases hin
        | some perms =>
          rw [hp] at hin
          rcases List.any_eq_true.mp hin with ⟨perm, hperm, hc⟩
          exact ⟨user, rfl, role, hrole, perms, hp, perm, hperm, by simpa using hc⟩
      · rintro ⟨user2, huser, role, hrole, perms, hp, perm, hperm, hc⟩
        cases huser
        show (user.roles.getD []).any _ = true
        refine List.any_eq_true.mpr ⟨role, hrole, ?_⟩
        show (match role.permissions with
          | none => false
          | some ps => ps.any fun perm => perm.codename == p) = true
        rw [hp]
        exact List.any_eq_true.mpr ⟨perm, hperm, by simpa using hc⟩

/-- C10: submitting the purchase-order form with zero line items is
rejected with the message `'Please add at least one line item'` before any
request, and a request is issued exactly when vendor, order_date and
priority are all present and at least one line item exists
(`POForm.handleFormSubmit`). -/
theorem C10_po_submit (fd : POFormData) (items : List LineItem) :
    (items = [] →
      handleFormSubmit fd items = .lineItemError "Please add at least one line item") ∧
    (handleFormSubmit fd items = .request fd items ↔
      fd.vendor ≠ "" ∧ fd.order_date ≠ "" ∧ fd.priority ≠ "" ∧ items ≠ []) := by
  constructor
  · intro hnil
    subst hnil
    rfl
  · unfold handleFormSubmit poFormErrors
    by_cases h0 : items.length = 0
    · rw [if_pos h0]
      have : items = [] := List.length_eq_zero.mp h0
      subst this
      simp
    · rw [if_neg h0]
      have hne : items ≠ [] := fun hcon => h0 (by simp [hcon])
      by_cases hv : fd.vendor = "" <;> by_cases hd : fd.order_date = "" <;>
        by_cases hp : fd.priority = "" <;>
        simp [hv, hd, hp, hne]

/-- Witness for C10: an empty item list is rejected with the exact
message, and a filled form with one item issues the request. -/
theorem C10_po_submit_witness :
    handleFormSubmit ⟨"v1", "2024-12-05", "MEDIUM"⟩ []
        = .lineItemError "Please add at least one line item" ∧
    handleFormSubmit ⟨"v1", "2024-12-05", "MEDIUM"⟩ [⟨"A", "a", 1, 1⟩]
        = .request ⟨"v1", "2024-12-05", "MEDIUM"⟩ [⟨"A", "a", 1, 1⟩] :=
  ⟨(C10_po_submit ⟨"v1", "2024-12-05", "MEDIUM"⟩ []).1 rfl,
   (C10_po_submit ⟨"v1", "2024-12-05", "MEDIUM"⟩ [⟨"A", "a", 1, 1⟩]).2.mpr
     (by refine ⟨?_, ?_, ?_, ?_⟩ <;> simp)⟩

/-- C5, counterexample: the purchase-order form stores and aggregates
numbers in binary64, not fixed-point decimal. Entering quantity 3 at unit
price 0.1 saves binary64 values whose computed total is
0.30000000000000004440892098500626…, not the exact decimal 0.3. -/
theorem C5_counterexample :
    handleSaveItem ⟨"ITEM-1", "widget", some 3, some (1/10)⟩
        = some ⟨"ITEM-1", "widget", toDouble 3, toDouble (1/10)⟩ ∧
    calculateTotal [⟨"ITEM-1", "widget", toDouble 3, toDouble (1/10)⟩]
        ≠ exactDecimalTotal [(3, 1/10)] := by
  constructor
  · rfl
  · with_unfolding_all decide

/-- C5, amended: the form's monetary and quantity fields are computed in
IEEE-754 binary64 (`parseFloat`, JavaScript `*` and `+`), so the computed
total is the binary64 evaluation of Σ quantity × unit_price, and there
exist entered values for which it differs from the exact decimal sum. -/
theorem C5_binary64_drift :
    ∃ (form : ItemFormState) (item : LineItem) (q p : ℚ),
      form.quantity_ordered = some q ∧ form.unit_price = some p ∧
      handleSaveItem form = some item ∧
      calculateTotal [item] ≠ exactDecimalTotal [(q, p)] := by
  refine ⟨⟨"ITEM-1", "widget", some 3, some (1/10)⟩,
    ⟨"ITEM-1", "widget", toDouble 3, toDouble (1/10)⟩, 3, 1/10, rfl, rfl, rfl, ?_⟩
  with_unfolding_all decide

/-- C6: the computed order total is the sum of the item subtotals
(quantity × unit price); on the spec's scenario — 10 at $5 and 5 at $20 —
the frontend's `calculateTotal`, the exact decimal sum, and the modelled
`create_order` total are all exactly $150. -/
theorem C6_total_amount :
    calculateTotal [⟨"A", "itemA", toDouble 10, toDouble 5⟩,
        ⟨"B", "itemB", toDouble 5, toDouble 20⟩] = 150 ∧
    exactDecimalTotal [(10, 5), (5, 20)] = 150 ∧
    (OrderService.create_order initState 7 "MEDIUM"
        [⟨some "A", some 10, some 5, 1⟩, ⟨some "B", some 5, some 20, 1⟩]).1.orders.map
        Order.total_amount = [150] := by
  refine ⟨?_, ?_, ?_⟩ <;> with_unfolding_all decide

/-- C7: `create_order` validates every submitted item — any missing sku,
quantity or unit_price, or a quantity not strictly positive, fails the
whole call with ValidationError and persists nothing; a well-formed input
persists the order and its items in status CREATED. -/
theorem C7_create_order_validation (s : FState) (wid : ℕ) (pr : String)
    (inputs : List OrderService.ItemInput) :
    ((∃ ci ∈ inputs, ci.sku = none ∨ ci.quantity = none ∨ ci.unit_price = none ∨
        ¬(0 < ci.quantity.getD 0)) →
      OrderService.create_order s wid pr inputs = (s, .error .validation)) ∧
    ((∀ ci ∈ inputs, ci.sku.isSome ∧ ci.quantity.isSome ∧ ci.unit_price.isSome ∧
        0 < ci.quantity.getD 0) →
      (OrderService.create_order s wid pr inputs).2 = .ok () ∧
      (OrderService.create_order s wid pr inputs).1.orders
        = s.orders ++ [⟨nextOrderId s, wid, pr, .CREATED,
            OrderService.assignIds (nextItemId s) inputs,
            sumQ (fun it => it.quantity * it.unit_price)
              (OrderService.assignIds (nextItemId s) inputs)⟩]) := by
  have hbad : ∀ ci : OrderService.ItemInput,
      (ci.sku = none ∨ ci.quantity = none ∨ ci.unit_price = none ∨
        ¬(0 < ci.quantity.getD 0)) ↔ ¬ci.valid := by
    intro ci
    unfold OrderService.ItemInput.valid
    cases hs : ci.sku <;> cases hq : ci.quantity <;> cases hp : ci.unit_price <;>
      simp [Option.isSome]
  constructor
  · intro ⟨ci, hci, hflaw⟩
    unfold OrderService.create_order
    rw [if_neg]
    intro hall
    exact (hbad ci).mp hflaw (hall ci hci)
  · intro hall
    unfold OrderService.create_order
    rw [if_pos]
    · exact ⟨rfl, rfl⟩
    · intro ci hci
      exact hall ci hci

/-- Witness for C7: a missing sku is rejected with ValidationError leaving
the store empty, and the valid sample input persists order 1 in CREATED. -/
theorem C7_create_order_validation_witness :
    OrderService.create_order initState 1 "LOW" [⟨none, some 5, some 2, 1⟩]
        = (initState, .error .validation) ∧
    (OrderService.create_order initState 1 "HIGH" [sampleItemInput]).1.orders
        = [⟨1, 1, "HIGH", .CREATED, [⟨1, "SKU1", 5, 2, 1⟩], 10⟩] := by
  constructor
  · exact (C7_create_order_validation initState 1 "LOW" [⟨none, some 5, some 2, 1⟩]).1
      ⟨⟨none, some 5, some 2, 1⟩, by simp, Or.inl rfl⟩
  · have h := (C7_create_order_validation initState 1 "HIGH" [sampleItemInput]).2
      (by intro ci hci; rw [List.mem_singleton] at hci; subst hci
          refine ⟨rfl, rfl, rfl, ?_⟩
          show (0 : ℚ) < 5
          norm_num)
    rw [h.2]
    with_unfolding_all decide

/-- Looking an order up again after a status update finds the updated
order. -/
theorem find?_id_map_update {l : List Order} {oid : ℕ} {o : Order}
    (hf : l.find? (fun x => x.id == oid) = some o) (st : OrderStatus) :
    (l.map fun x => if x.id = oid then { x with status := st } else x).find?
        (fun x => x.id == oid) = some { o with status := st } := by
  induction l with
  | nil => cases hf
  | cons x xs ih =>
    by_cases hx : x.id = oid
    · simp only [List.find?, hx, beq_self_eq_true] at hf
      cases hf
      simp [List.find?, hx]
    · have hbx : (x.id == oid) = false := by simp [hx]
      simp only [List.find?, hbx] at hf
      simp only [List.map_cons, if_neg hx, List.find?, hbx]
      exact ih hf

/-- C3: cancelling an order in any non-terminal status succeeds, marks
every Allocation row of the order's items RELEASED (zero ACTIVE
allocations remain for the order), and a second cancel on the
now-CANCELLED order returns success with the identical store — same end
state, nothing raised, and no duplicate audit entry. -/
theorem C3_cancel_idempotent (s : FState) (oid : ℕ) (o : Order) (r1 r2 : String)
    (ho : orderById s oid = some o)
    (hnt : o.status.isTerminal = false) :
    (OrderService.cancel s oid r1).2 = .ok () ∧
    (∀ a ∈ (OrderService.cancel s oid r1).1.allocations,
        a.order_item_id ∈ o.items.map FulfillItem.id → a.status = .RELEASED) ∧
    OrderService.cancel (OrderService.cancel s oid r1).1 oid r2
      = ((OrderService.cancel s oid r1).1, .ok ()) := by
  have hnc : o.status ≠ .CANCELLED := fun hcon => by
    rw [hcon] at hnt; exact absurd hnt (by decide)
  have hnd : o.status ≠ .DELIVERED := fun hcon => by
    rw [hcon] at hnt; exact absurd hnt (by decide)
  have hred : OrderService.cancel s oid r1 =
      ({ setOrderStatus s oid .CANCELLED with
         allocations := AllocationService.release_order s.allocations
           (o.items.map FulfillItem.id),
         audit := s.audit ++ [⟨"Order", oid, "CANCELLED:" ++ r1⟩] }, .ok ()) := by
    unfold OrderService.cancel
    simp only [ho]
    rw [if_neg hnc, if_neg hnd]
  refine ⟨by rw [hred], ?_, ?_⟩
  · intro a ha hamem
    rw [hred] at ha
    have ha2 : a ∈ s.allocations.map fun b =>
        if b.order_item_id ∈ o.items.map FulfillItem.id
        then { b with status := AllocStatus.RELEASED } else b := ha
    rcases List.mem_map.mp ha2 with ⟨b, hb, rfl⟩
    by_cases hc : b.order_item_id ∈ o.items.map FulfillItem.id
    · simp [hc]
    · rw [if_neg hc] at hamem ⊢
      exact absurd hamem hc
  · rw [hred]
    have hfind2 : orderById
        ({ setOrderStatus s oid .CANCELLED with
           allocations := AllocationService.release_order s.allocations
             (o.items.map FulfillItem.id),
           audit := s.audit ++ [⟨"Order", oid, "CANCELLED:" ++ r1⟩] } : FState) oid
        = some { o with status := .CANCELLED } := find?_id_map_update ho .CANCELLED
    show OrderService.cancel _ oid r2 = _
    unfold OrderService.cancel
    simp only [hfind2]
    simp

/-- Witness for C3 at the concrete store `S1` (order 1 in CREATED, no
allocations): cancel succeeds and cancelling again returns the same store
with success and no new audit entry. -/
theorem C3_cancel_idempotent_witness :
    (OrderService.cancel S1 1 "no stock").2 = .ok () ∧
    OrderService.cancel (OrderService.cancel S1 1 "no stock").1 1 "again"
      = ((OrderService.cancel S1 1 "no stock").1, .ok ()) := by
  have h := C3_cancel_idempotent S1 1 ⟨1, 1, "HIGH", .CREATED, [⟨1, "SKU1", 5, 2, 1⟩], 10⟩
    "no stock" "again" (by with_unfolding_all decide) (by decide)
  exact ⟨h.1, h.2.2⟩

/-- C8: `add_item` on an OPEN package with an admissible quantity fails
with PackageOverweightError — returning the store unchanged, so the
package's contents and stored weight are exactly as before — whenever the
projected weight (empty_weight + Σ item_weight×quantity including the new
item) exceeds max_weight; an add landing exactly on max_weight succeeds;
and an add exceeding max_weight by any positive amount (in particular the
smallest representable unit) fails. -/
theorem C8_add_item_overweight (s : FState) (tid pkgid itemid : ℕ) (q : ℚ)
    (t : PackingTask) (pkg : Package)
    (ht : PackingService.taskById s tid = some t)
    (hp : t.packages.find? (fun p => p.id == pkgid) = some pkg)
    (hopen : pkg.status = .OPEN)
    (hq : 0 < q ∧ q ≤ pickedQty s itemid - packedQty s itemid) :
    (pkg.max_weight < PackingService.packageWeight s pkg
        + PackingService.weightOf s itemid * q →
      PackingService.add_item s tid pkgid itemid q = (s, .error .packageOverweight)) ∧
    (PackingService.packageWeight s pkg + PackingService.weightOf s itemid * q
        = pkg.max_weight →
      (PackingService.add_item s tid pkgid itemid q).2 = .ok ()) ∧
    (∀ ε : ℚ, 0 < ε →
      PackingService.packageWeight s pkg + PackingService.weightOf s itemid * q
        = pkg.max_weight + ε →
      PackingService.add_item s tid pkgid itemid q = (s, .error .packageOverweight)) := by
  unfold PackingService.add_item
  simp only [ht, hp]
  rw [if_pos hopen, if_pos hq]
  refine ⟨?_, ?_, ?_⟩
  · intro hover
    rw [if_neg (not_le.mpr hover)]
  · intro heq
    rw [if_pos (le_of_eq heq)]
  · intro ε hε heq
    rw [if_neg]
    rw [heq]
    intro hcon
    linarith

/-- Witness for C8 on the fixture `sW`: item 42 weighs 2, the open package
has empty weight 1 and max weight 3, so adding 2 units projects weight 5
and is rejected with PackageOverweightError, the store unchanged. -/
theorem C8_add_item_overweight_witness :
    PackingService.add_item sW 1 1 42 2 = (sW, .error .packageOverweight) := by
  have h := C8_add_item_overweight sW 1 1 42 2
    ⟨1, 1, .PENDING, [⟨1, 1, 1, 1, 1, 3, .OPEN, []⟩]⟩ ⟨1, 1, 1, 1, 1, 3, .OPEN, []⟩
    (by with_unfolding_all decide) (by with_unfolding_all decide) rfl
    (by constructor <;> with_unfolding_all decide)
  exact h.1 (by with_unfolding_all decide)

/-- C2: `allocate_order` is all-or-nothing. On a store satisfying the
service invariant, with the order APPROVED and no Allocation rows for its
items: if any item's aggregate availability is short, the call fails with
`InsufficientInventoryError` whose sku list is exactly the short items,
and the store is unchanged — no Allocation rows exist for the order
afterwards; if every item is covered, the call succeeds, commits exactly
one Allocation row per (item, location) reservation
(`reservationRows`), and every item ends fully reserved: its ACTIVE
allocation sum equals its ordered quantity. -/
theorem C2_allocate_all_or_nothing (s : FState) (avail : AllocationService.AvailFn)
    (oid : ℕ) (o : Order) (hinv : Inv s) (ho : orderById s oid = some o)
    (hst : o.status = .APPROVED)
    (hpre : ∀ it ∈ o.items, (s.allocations.filter fun a => a.order_item_id = it.id) = []) :
    ((∃ it ∈ o.items, AllocationService.itemAvailable avail it.sku < it.quantity) →
      OrderService.allocate s avail oid
        = (s, .error (.insufficientInventory (AllocationService.shortSkus avail o.items)))
      ∧ AllocationService.shortSkus avail o.items ≠ []
      ∧ (∀ sk, sk ∈ AllocationService.shortSkus avail o.items ↔
          ∃ it ∈ o.items, it.sku = sk ∧
            AllocationService.itemAvailable avail it.sku < it.quantity)) ∧
    ((∀ it ∈ o.items, it.quantity ≤ AllocationService.itemAvailable avail it.sku) →
      (OrderService.allocate s avail oid).2 = .ok ()
      ∧ (OrderService.allocate s avail oid).1.allocations
          = s.allocations ++ AllocationService.reservationRows avail o.items
      ∧ ∀ it ∈ o.items,
          activeAllocated (OrderService.allocate s avail oid).1 it.id = it.quantity) := by
  have hcan : can_transition o.status .ALLOCATED = true := by rw [hst]; rfl
  have homem : o ∈ s.orders := List.mem_of_find?_eq_some ho
  have hsubo : ∀ it ∈ o.items, it ∈ itemsOf s :=
    fun it hit => (order_items_sublist homem).subset hit
  have hnodupo : (o.items.map FulfillItem.id).Nodup :=
    hinv.itemIdsNodup.sublist ((order_items_sublist homem).map _)
  have hpos : ∀ it ∈ o.items, 0 < it.quantity := fun it hit => hinv.itemPos it (hsubo it hit)
  constructor
  · rintro ⟨it0, hit0, hlt⟩
    have hmemS : it0.sku ∈ AllocationService.shortSkus avail o.items := by
      unfold AllocationService.shortSkus
      exact List.mem_map_of_mem _ (List.mem_filter.mpr ⟨hit0, by simpa using hlt⟩)
    have hne : AllocationService.shortSkus avail o.items ≠ [] := List.ne_nil_of_mem hmemS
    have hchar : ∀ sk, sk ∈ AllocationService.shortSkus avail o.items ↔
        ∃ it ∈ o.items, it.sku = sk ∧
          AllocationService.itemAvailable avail it.sku < it.quantity := by
      intro sk
      unfold AllocationService.shortSkus
      simp only [List.mem_map, List.mem_filter, decide_eq_true_eq]
      constructor
      · rintro ⟨it, ⟨hit, hshort⟩, rfl⟩
        exact ⟨it, hit, rfl, hshort⟩
      · rintro ⟨it, hit, rfl, hshort⟩
        exact ⟨it, ⟨hit, hshort⟩, rfl⟩
    refine ⟨?_, hne, hchar⟩
    cases hS : AllocationService.shortSkus avail o.items with
    | nil => exact absurd hS hne
    | cons a l =>
      unfold OrderService.allocate
      simp only [ho]
      rw [if_pos hcan, if_pos hpre]
      simp only [AllocationService.allocate_order, hS]
  · intro hall
    have hfilnil : (o.items.filter fun it =>
        AllocationService.itemAvailable avail it.sku < it.quantity) = [] := by
      refine List.filter_eq_nil_iff.mpr fun it hit => ?_
      simp only [decide_eq_true_eq, not_lt]
      exact hall it hit
    have hS : AllocationService.shortSkus avail o.items = [] := by
      unfold AllocationService.shortSkus
      rw [hfilnil]
      rfl
    have hred : OrderService.allocate s avail oid =
        ({ setOrderStatus s oid .ALLOCATED with
           allocations := s.allocations ++ AllocationService.reservationRows avail o.items,
           audit := s.audit ++ [⟨"Order", oid, "ALLOCATED"⟩] }, .ok ()) := by
      unfold OrderService.allocate
      simp only [ho]
      rw [if_pos hcan, if_pos hpre]
      simp only [AllocationService.allocate_order, hS]
    refine ⟨by rw [hred], by rw [hred], ?_⟩
    intro it hit
    rw [hred]
    have hsplit : ∀ it2 ∈ o.items,
        sumQ Prod.snd (AllocationService.splitReservations it2.quantity (avail it2.sku))
          = it2.quantity :=
      fun it2 hit2 => splitReservations_sum (hpos it2 hit2) (hall it2 hit2)
    have hactive2 : activeAllocated
        ({ setOrderStatus s oid .ALLOCATED with
           allocations := s.allocations ++ AllocationService.reservationRows avail o.items,
           audit := s.audit ++ [⟨"Order", oid, "ALLOCATED"⟩] } : FState) it.id
        = activeAllocated s it.id
          + sumQ FulfillItem.quantity (o.items.filter fun x => x.id = it.id) := by
      unfold activeAllocated
      show sumQ Allocation.quantity
        ((s.allocations ++ AllocationService.reservationRows avail o.items).filter _) = _
      rw [List.filter_append, sumQ_append, reservationRows_active_sum it.id,
        sumQ_filter_eq_sum_ite]
      congr 1
      refine congrArg List.sum (List.map_congr_left fun it2 hit2 => ?_)
      by_cases hii : it2.id = it.id
      · rw [if_pos hii, if_pos hii, hsplit it2 hit2]
      · rw [if_neg hii, if_neg hii]
    rw [hactive2]
    have hzero : activeAllocated s it.id = 0 := by
      unfold activeAllocated
      refine sumQ_filter_eq_zero (List.filter_eq_nil_iff.mpr fun a ha => ?_)
      have := List.filter_eq_nil_iff.mp (hpre it hit) a ha
      simp only [decide_eq_true_eq] at this ⊢
      exact fun hcon => this hcon.1
    rw [hzero, zero_add]
    rcases filter_key_nodup hnodupo it.id with hfnil | ⟨x, hx, hxid, hfone⟩
    · exfalso
      have : it ∈ o.items.filter fun x => x.id = it.id :=
        List.mem_filter.mpr ⟨hit, by simp⟩
      rw [hfnil] at this
      cases this
    · rw [hfone, sumQ_cons, sumQ_nil, add_zero]
      have hx_it : x = it := List.inj_on_of_nodup_map hnodupo hx hit hxid
      rw [hx_it]

/-- Witness for C2 at the concrete approved store `S2a` (order 1, one item
of quantity 5) against the adapter `availLow` exposing only 3 units: the
short-sku list is non-empty and the call fails with
InsufficientInventoryError naming it, leaving the store unchanged. -/
theorem C2_allocate_all_or_nothing_witness :
    AllocationService.shortSkus availLow [⟨1, "SKU1", 5, 2, 1⟩] ≠ [] ∧
    OrderService.allocate S2a availLow 1
      = (S2a, .error (.insufficientInventory
          (AllocationService.shortSkus availLow [⟨1, "SKU1", 5, 2, 1⟩]))) := by
  have hinv : Inv S2a :=
    inv_approve S1 1 (inv_create_order initState 1 "HIGH" [sampleItemInput] inv_initState)
  have h := (C2_allocate_all_or_nothing S2a availLow 1
      ⟨1, 1, "HIGH", .APPROVED, [⟨1, "SKU1", 5, 2, 1⟩], 10⟩ hinv
      (by with_unfolding_all decide) rfl
      (by with_unfolding_all decide)).1
    ⟨⟨1, "SKU1", 5, 2, 1⟩, by with_unfolding_all decide, by with_unfolding_all decide⟩
  exact ⟨h.2.1, h.1⟩

/-- C1: on every reachable store of the fulfillment lifecycle — reachable
meaning produced from the empty store by any sequence of service
operations, so that every operation preserves what follows — the three
quantity-reconciliation inequalities hold for every order item: the sum of
ACTIVE allocation quantities is at most the ordered quantity, the sum of
picked quantities is at most the sum of allocated quantities (over all
Allocation rows; §4.3 keeps released rows, marked RELEASED), and the sum
of packed quantities across all packages is at most the picked
quantity. -/
theorem C1_quantity_reconciliation (s : FState) (hs : Reachable s) :
    ∀ it ∈ itemsOf s,
      activeAllocated s it.id ≤ it.quantity ∧
      pickedQty s it.id ≤ totalAllocated s it.id ∧
      packedQty s it.id ≤ pickedQty s it.id := by
  intro it hit
  have h := inv_reachable hs
  refine ⟨h.allocLe it hit, ?_, h.packLe it hit⟩
  have hcap : pickedQty s it.id ≤ expectedQty s it.id := by
    unfold pickedQty expectedQty
    exact sumQ_le_sumQ fun p hp => h.pickRowCap p (List.mem_of_mem_filter hp)
  exact le_trans hcap (h.expLe it hit)

/-- Witness for C1 at the concrete reachable store `S1` (one created order
with item 1, quantity 5): all three inequalities hold there. -/
theorem C1_quantity_reconciliation_witness :
    (⟨1, "SKU1", 5, 2, 1⟩ : FulfillItem) ∈ itemsOf S1 ∧
    activeAllocated S1 1 ≤ (5 : ℚ) ∧
    pickedQty S1 1 ≤ totalAllocated S1 1 ∧
    packedQty S1 1 ≤ pickedQty S1 1 := by
  have hmem : (⟨1, "SKU1", 5, 2, 1⟩ : FulfillItem) ∈ itemsOf S1 := by
    with_unfolding_all decide
  have hreach : Reachable S1 :=
    Relation.ReflTransGen.single (Step.create_order initState 1 "HIGH" [sampleItemInput])
  have h := C1_quantity_reconciliation S1 hreach ⟨1, "SKU1", 5, 2, 1⟩ hmem
  exact ⟨hmem, h.1, h.2.1, h.2.2⟩

end ERP
